import Mathlib

/-!
Verification of the combinatorial ordering engine of `running_order.py`
(sketch_running_order): the feasibility relation builder, the exhaustive
backtracking search over partial orders, the cost model and selector, and
the greedy pairwise-swap optimizer.

Python data is embedded as follows:
* `frozenset` casts become `List ℕ` of performer ids with set operations
  (`List.inter`, membership); only emptiness/membership of casts matter.
* Python `dict[int, set[int]]` (the feasibility relation) becomes an
  association list `List (ℕ × List ℕ)`; `d[k]` access that can raise
  `KeyError` becomes `List.lookup` returning `Option`.
* The anchors `dict[int, int]` is only ever read via `anchors[p]` with
  `try/except KeyError`, so it is embedded as a function `ℕ → Option ℕ`.
* Python `set[SketchOrder]` values become duplicate-free `List SketchOrder`
  kept in insertion order; `set.add` inserts at the end when absent.
  `next(iter(s))` becomes `List.head?` (one fixed iteration order).
* The `while stack:` loop of `find_all_orders` is embedded with explicit
  fuel; the fuel chosen in `find_all_orders` dominates the number of loop
  iterations, and `none` models both fuel exhaustion and an uncaught
  `KeyError` escaping the loop.
* `float("inf")` used as the initial best cost becomes `none : Option ℕ`
  and `<` on costs becomes `costLt`.
* numpy overlap matrices (entrywise counts of shared cast members) become
  functions `ℕ → ℕ → ℕ`.
-/

namespace RunningOrder

/-- A sketch: title, cast (set of performer ids) and anchored flag, from the
`Sketch` dataclass. -/
structure Sketch where
  title : String
  cast : List ℕ
  anchored : Bool
deriving DecidableEq, Inhabited

/-- A partial or full running order of sketches, from the `SketchOrder`
class (a wrapper around a list of sketch indices with structural
equality and hashing). -/
structure SketchOrder where
  order : List ℕ
deriving DecidableEq, Inhabited

/-- `get_allowable_next_sketches`: for each sketch index `ind1` (in
increasing order, as `itertools.product(enumerate(sketches), repeat=2)`
visits them), the list of indices `ind2` whose cast is disjoint from
`ind1`'s cast.  The Python `defaultdict` only creates the key `ind1` when
at least one `ind2` is added, so indices with no allowable successor are
absent from the association list. -/
def get_allowable_next_sketches (sketches : List Sketch) : List (ℕ × List ℕ) :=
  (List.range sketches.length).filterMap fun ind1 =>
    let nexts := (List.range sketches.length).filter fun ind2 =>
      ((sketches.getD ind1 default).cast.inter (sketches.getD ind2 default).cast) = []
    if nexts = [] then none else some (ind1, nexts)

/-- `SketchOrder.possible_next_states`: all orders one longer than this one
satisfying the constraints.  `none` models the uncaught `KeyError` raised
by `allowed_nexts[last_sketch]` when `last_sketch` is not a key. -/
def possible_next_states (so : SketchOrder) (allowed_nexts : List (ℕ × List ℕ))
    (num_sketches : ℕ) (anchors : ℕ → Option ℕ) : Option (List SketchOrder) :=
  if so.order = [] then
    match anchors 0 with
    | some a => some [⟨[a]⟩]
    | none => some ((List.range num_sketches).map fun first_sketch => ⟨[first_sketch]⟩)
  else
    let last_sketch := so.order.getLastD 0
    match anchors so.order.length with
    | none =>
      match allowed_nexts.lookup last_sketch with
      | none => none
      | some s =>
        let allowed_next := s.filter fun n => ¬ n ∈ so.order
        some (allowed_next.map fun next_sketch => ⟨so.order ++ [next_sketch]⟩)
    | some next_sketch =>
      match allowed_nexts.lookup last_sketch with
      | none => none
      | some s =>
        if next_sketch ∈ s ∧ ¬ next_sketch ∈ so.order then
          some [⟨so.order ++ [next_sketch]⟩]
        else some []

/-- `set.add`: append if not already present (Python set membership,
modelled in insertion order). -/
def addOrder (x : SketchOrder) (l : List SketchOrder) : List SketchOrder :=
  if x ∈ l then l else l ++ [x]

/-- The `for candidate_one_longer in candidates:` body of
`find_all_orders`: complete candidates go to the result set, undiscovered
shorter ones are recorded and pushed.  Returns
`(allowed_full_orders, discovered, stack)`. -/
def processCandidates (num_sketches : ℕ) :
    List SketchOrder → List SketchOrder → List SketchOrder → List SketchOrder →
    List SketchOrder × List SketchOrder × List SketchOrder
  | [], full, discovered, stack => (full, discovered, stack)
  | c :: rest, full, discovered, stack =>
    if c.order.length = num_sketches then
      processCandidates num_sketches rest (addOrder c full) discovered stack
    else if c ∈ discovered then
      processCandidates num_sketches rest full discovered stack
    else
      processCandidates num_sketches rest full (discovered ++ [c]) (c :: stack)

/-- The `while stack:` loop of `find_all_orders`, with explicit fuel.
`stack.pop()` is LIFO: the stack is embedded head-first (push = cons,
pop = head).  Progress printing is a side effect only and is omitted. -/
def find_all_orders_loop (allowed_nexts : List (ℕ × List ℕ)) (anchors : ℕ → Option ℕ)
    (num_sketches : ℕ) :
    ℕ → List SketchOrder → List SketchOrder → List SketchOrder →
    Option (List SketchOrder)
  | _, [], _, full => some full
  | 0, _ :: _, _, _ => none
  | fuel + 1, po :: rest, discovered, full =>
    match possible_next_states po allowed_nexts num_sketches anchors with
    | none => none
    | some candidates =>
      match processCandidates num_sketches candidates full discovered rest with
      | (full', discovered', stack') =>
        find_all_orders_loop allowed_nexts anchors num_sketches fuel stack' discovered' full'

/-- Every sketch index a reachable partial order can mention: the initial
range, all successor sets, and any anchored sketch index. -/
def stateUniverse (allowed_nexts : List (ℕ × List ℕ)) (anchors : ℕ → Option ℕ)
    (num_sketches : ℕ) : List ℕ :=
  List.range num_sketches ++ (allowed_nexts.map Prod.snd).flatten ++
    (List.range (num_sketches + 1)).filterMap anchors

/-- All lists over the element list `E` of length at most `n` (with
repetitions); used only to bound the number of loop iterations. -/
def listsUpTo (E : List ℕ) : ℕ → List (List ℕ)
  | 0 => [[]]
  | n + 1 => [] :: E.flatMap fun e => (listsUpTo E n).map fun l => e :: l

/-- `find_all_orders`: depth-first enumeration of all full-length orders
satisfying the constraints.  `num_sketches = len(allowed_nexts)`.  The
fuel strictly dominates the number of `while` iterations actually needed
(one per pop; pops ≤ 1 + number of distinct discoverable partial orders),
so `none` can only arise from the `KeyError` path on inputs whose search
space fits the universe; theorems below never rely on that distinction. -/
def find_all_orders (allowed_nexts : List (ℕ × List ℕ)) (anchors : ℕ → Option ℕ) :
    Option (List SketchOrder) :=
  let num_sketches := allowed_nexts.length
  let fuel :=
    ((stateUniverse allowed_nexts anchors num_sketches).length + 1) ^ (num_sketches + 1) + 2
  find_all_orders_loop allowed_nexts anchors num_sketches fuel [⟨[]⟩] [⟨[]⟩] []

/-- Key list of a Python dict built by inserting the elements of a list in
order: keys already seen are skipped (their value is updated but their key
position is unchanged). -/
def firstKeysAux : List ℕ → List ℕ → List ℕ
  | [], _ => []
  | x :: xs, seen =>
    if x ∈ seen then firstKeysAux xs seen else x :: firstKeysAux xs (x :: seen)

/-- The key list of a Python dict built by `{val: ind for ind, val in
enumerate(l)}`: the elements of `l` with later duplicates removed, in
first-occurrence order. -/
def firstKeys (l : List ℕ) : List ℕ :=
  firstKeysAux l []

/-- `evaluate_cost`: note the source zips the two *key* lists
(`zip(actual_spot.keys(), desired_spot.keys())`), so it sums
`|candidate.order[k] - desired[k]|` positionwise rather than comparing the
positions of each item. -/
def evaluate_cost (candidate : SketchOrder) (desired : List ℕ) : ℕ :=
  let desired_keys := firstKeys desired
  let actual_keys := firstKeys candidate.order
  ((actual_keys.zip desired_keys).map fun p => ((p.1 : ℤ) - (p.2 : ℤ)).natAbs).sum

/-- `find_closest_to_desired`: evaluate all costs, keep the candidates of
minimal cost, and return one of them (`next(iter(best_orders))`, embedded
as the first such candidate in iteration order).  `none` models the
`ValueError` of `min` on an empty sequence (never reached from
`find_best_order`). -/
def find_closest_to_desired (orders : List SketchOrder) (desired : List ℕ) :
    Option SketchOrder :=
  let costs := orders.map fun candidate => (candidate, evaluate_cost candidate desired)
  match (costs.map Prod.snd).min? with
  | none => none
  | some min_cost => ((costs.filter fun p => p.2 = min_cost).map Prod.fst).head?

/-- `find_best_order`: run the exhaustive search, raise
`ValueError("No valid running order ...")` when it finds nothing, and
otherwise select either an arbitrary order (`next(iter(all_orders))`,
embedded as the first in iteration order) or the one closest to the
desired order.  The `none` results of the search (uncaught `KeyError`)
surface as an error as well; the two inner `none` fallbacks are
unreachable because `all_orders` is non-empty there. -/
def find_best_order (allowed_nexts : List (ℕ × List ℕ)) (anchors : ℕ → Option ℕ)
    (desired : Option (List ℕ)) : Except String SketchOrder :=
  match find_all_orders allowed_nexts anchors with
  | none => .error "KeyError"
  | some all_orders =>
    if all_orders = [] then
      .error "No valid running order found that satisfies all constraints"
    else
      match desired with
      | none =>
        match all_orders.head? with
        | some o => .ok o
        | none => .error "KeyError"
      | some d =>
        match find_closest_to_desired all_orders d with
        | some o => .ok o
        | none => .error "KeyError"

/-- `make_player_incidence_matrix`: one row of 0/1 sketch memberships per
player.  `list(set(itertools.chain(...)))` is embedded as `dedup` of the
concatenated casts (the Python set iteration order is arbitrary; no
result below depends on row order). -/
def make_player_incidence_matrix (sketches : List Sketch) : List (List ℕ) :=
  ((sketches.flatMap fun s => s.cast).dedup).map fun x =>
    sketches.map fun y => if x ∈ y.cast then 1 else 0

/-- `make_sketch_overlap_matrix`: entry `(i, j)` of `mat.T @ mat` for the
incidence matrix `mat`, i.e. the number of players appearing in both
sketch `i` and sketch `j`. -/
def make_sketch_overlap_matrix (sketches : List Sketch) : ℕ → ℕ → ℕ :=
  fun i j =>
    ((make_player_incidence_matrix sketches).map fun row => row.getD i 0 * row.getD j 0).sum

/-- `calc_order_overlap`: total overlap between adjacent sketches
(`itertools.pairwise` = zip with the tail). -/
def calc_order_overlap (overlap_mat : ℕ → ℕ → ℕ) (candidate : SketchOrder) : ℕ :=
  ((candidate.order.zip candidate.order.tail).map fun p => overlap_mat p.1 p.2).sum

/-- Costs in the greedy optimizer live in ℕ extended with `float("inf")`,
embedded as `none`. -/
def costLt : Option ℕ → Option ℕ → Bool
  | none, _ => false
  | some _, none => true
  | some a, some b => a < b

/-- The simultaneous Python assignment
`new[i], new[j] = order[j], order[i]` on a copy of `order`. -/
def swapPositions (l : List ℕ) (i j : ℕ) : List ℕ :=
  (l.set i (l.getD j 0)).set j (l.getD i 0)

/-- Index pairs visited by `for i in range(n-1): for j in range(i+1, n)`. -/
def swapPairs (n : ℕ) : List (ℕ × ℕ) :=
  (List.range (n - 1)).flatMap fun i => (List.range' (i + 1) (n - (i + 1))).map fun j => (i, j)

/-- `find_best_swap`: scan all transpositions of the input order, keeping
the lexicographically best `(overlap, cost)` seen; the initial best cost
is `float("inf")`, and with no desired order `new_cost` is the current
best cost so the tiebreak never fires.  (`if desired is SketchOrder:` in
the source compares against the class object and is a no-op for the
`list`/`None` arguments actually passed.) -/
def find_best_swap (overlap_mat : ℕ → ℕ → ℕ) (sketch_order : SketchOrder)
    (desired : Option (List ℕ)) : SketchOrder × ℕ × Option ℕ :=
  (swapPairs sketch_order.order.length).foldl
    (fun best ij =>
      let new_order : SketchOrder := ⟨swapPositions sketch_order.order ij.1 ij.2⟩
      let new_overlap := calc_order_overlap overlap_mat new_order
      let new_cost : Option ℕ :=
        match desired with
        | none => best.2.2
        | some d => some (evaluate_cost new_order d)
      if new_overlap < best.2.1 ∨ (new_overlap = best.2.1 ∧ costLt new_cost best.2.2) then
        (new_order, new_overlap, new_cost)
      else best)
    (sketch_order, calc_order_overlap overlap_mat sketch_order, none)

/-- Rank used to order `float("inf")` above every natural number in the
termination measure of the greedy loop. -/
def costRank : Option ℕ → ℕ
  | none => 1
  | some _ => 0

/-- Finite value of a cost (0 for `float("inf")`); only used in the
termination measure. -/
def costVal : Option ℕ → ℕ
  | none => 0
  | some n => n

/-- The `while True:` loop of `greedy_algo`: accept the proposed swap when
it improves `(overlap, cost)` lexicographically, otherwise return the
current best order.  Terminates because the accepted
`(overlap, rank, value)` triple strictly decreases. -/
def greedy_algo_go (overlap_mat : ℕ → ℕ → ℕ) (desired : Option (List ℕ))
    (best_order : SketchOrder) (best_overlap : ℕ) (best_cost : Option ℕ) : SketchOrder :=
  match find_best_swap overlap_mat best_order desired with
  | (new_order, new_overlap, new_cost) =>
    if h : new_overlap < best_overlap ∨
        (new_overlap = best_overlap ∧ costLt new_cost best_cost) then
      greedy_algo_go overlap_mat desired new_order new_overlap new_cost
    else best_order
termination_by (best_overlap, costRank best_cost, costVal best_cost)
decreasing_by
  rcases h with h | ⟨h1, h2⟩
  · exact Prod.Lex.left _ _ h
  · subst h1
    refine Prod.Lex.right _ ?_
    cases best_cost with
    | none =>
      cases new_cost with
      | none => simp [costLt] at h2
      | some a => exact Prod.Lex.left _ _ (by simp [costRank])
    | some b =>
      cases new_cost with
      | none => simp [costLt] at h2
      | some a => exact Prod.Lex.right _ (by simpa [costLt, costVal] using h2)

/-- `greedy_algo`: start from the candidate order with best cost
`float("inf")` and iterate `find_best_swap` until no accepted move
remains. -/
def greedy_algo (overlap_mat : ℕ → ℕ → ℕ) (candidate : SketchOrder)
    (desired : Option (List ℕ)) : SketchOrder :=
  greedy_algo_go overlap_mat desired candidate (calc_order_overlap overlap_mat candidate) none

/-- The same `while True:` loop with explicit fuel; `none` means the fuel
ran out before the loop returned. -/
def greedy_algo_loop (overlap_mat : ℕ → ℕ → ℕ) (desired : Option (List ℕ)) :
    ℕ → SketchOrder → ℕ → Option ℕ → Option SketchOrder
  | 0, _, _, _ => none
  | fuel + 1, best_order, best_overlap, best_cost =>
    match find_best_swap overlap_mat best_order desired with
    | (new_order, new_overlap, new_cost) =>
      if new_overlap < best_overlap ∨
          (new_overlap = best_overlap ∧ costLt new_cost best_cost) then
        greedy_algo_loop overlap_mat desired fuel new_order new_overlap new_cost
      else some best_order

/-- One adjacency step is feasibility-consistent when the successor is in
the allowed-next set of its predecessor. -/
def allowedStep (allowed_nexts : List (ℕ × List ℕ)) (a b : ℕ) : Prop :=
  ∃ s, allowed_nexts.lookup a = some s ∧ b ∈ s

/-- Anchor consistency of an order: every anchored position that the order
reaches holds the required sketch. -/
def anchorsRespected (anchors : ℕ → Option ℕ) (l : List ℕ) : Prop :=
  ∀ p a, anchors p = some a → p < l.length → l.getD p 0 = a

/-- A full-length order that is feasibility-consistent and
anchor-consistent: it has length `N = allowed_nexts.length`, contains
every sketch index below `N` exactly once, each adjacent pair is an
allowed step, and all anchors are respected. -/
def consistentFull (allowed_nexts : List (ℕ × List ℕ)) (anchors : ℕ → Option ℕ)
    (l : List ℕ) : Prop :=
  l.length = allowed_nexts.length ∧
    (∀ i < allowed_nexts.length, l.count i = 1) ∧
    List.Chain' (allowedStep allowed_nexts) l ∧
    anchorsRespected anchors l

/-- Soundness invariant for partial orders produced by the search: no
repeated sketch, adjacent pairs allowed, anchors respected. -/
def soundPartialOrder (allowed_nexts : List (ℕ × List ℕ)) (anchors : ℕ → Option ℕ)
    (l : List ℕ) : Prop :=
  l.Nodup ∧ List.Chain' (allowedStep allowed_nexts) l ∧ anchorsRespected anchors l

/-- Lexicographic strict order on index sequences, following the spec
wording "lexicographically smallest index sequence". -/
def lexLt : List ℕ → List ℕ → Bool
  | [], [] => false
  | [], _ :: _ => true
  | _ :: _, [] => false
  | a :: l, b :: m => if a < b then true else if b < a then false else lexLt l m

/-- The cost the source documentation and the spec describe: the sum over
all items of the absolute difference between the item's position in the
candidate and its position in the desired order ("Sum of the absolute
distances between a sketch's position and its desired position").  Stated
from those words, to be compared with `evaluate_cost` as implemented. -/
def specDisplacementCost (candidate : SketchOrder) (desired : List ℕ) : ℕ :=
  (candidate.order.map fun item =>
    ((candidate.order.indexOf item : ℤ) - (desired.indexOf item : ℤ)).natAbs).sum

/-- The feasibility relation of the three-sketch scenario used by the
repository tests (`{0: {1}, 1: {0, 2}, 2: {1}}`). -/
def allowedThree : List (ℕ × List ℕ) := [(0, [1]), (1, [0, 2]), (2, [1])]

/-- The empty anchor map. -/
def noAnchors : ℕ → Option ℕ := fun _ => none

/-- Three sketches in which sketch 0 shares a cast member with every
sketch, so it has no allowable successor at all. -/
def conflictSketches : List Sketch :=
  [⟨"A", [0, 1], false⟩, ⟨"B", [0], false⟩, ⟨"C", [1], false⟩]

/-- The three-sketch scenario of the spec: casts `{x,y,z}`, `{p,q}`, `{x}`
with the players encoded as 0–4. -/
def scenarioSketches : List Sketch :=
  [⟨"A", [0, 1, 2], false⟩, ⟨"B", [3, 4], false⟩, ⟨"C", [0], false⟩]

/-- An anchor map pinning sketch 0 to position 0. -/
def anchorZero : ℕ → Option ℕ := fun p => if p = 0 then some 0 else none

/-- Overlap matrix for the greedy counterexample: sketches 0 and 1 share
exactly one cast member, all other pairs are disjoint. -/
def overlapCex : ℕ → ℕ → ℕ :=
  fun i j => if (i = 0 ∧ j = 1) ∨ (i = 1 ∧ j = 0) then 1 else 0

/-- Invariant of the `find_all_orders` worklist loop, for a feasibility
relation whose keys are exactly `0, ..., N-1`: the stack holds distinct
undone orders recorded in `discovered`; `discovered` holds distinct sound
in-range partial orders including the empty one; `full` holds sound
in-range complete orders; and every discovered order no longer on the
stack has had all its successors recorded. -/
def loopInv (allowed_nexts : List (ℕ × List ℕ)) (anchors : ℕ → Option ℕ)
    (stack disc full : List SketchOrder) : Prop :=
  stack.Nodup ∧
  (∀ o ∈ stack, o ∈ disc) ∧
  (⟨[]⟩ : SketchOrder) ∈ disc ∧
  disc.Nodup ∧
  (∀ o ∈ disc, ∀ x ∈ o.order, x < allowed_nexts.length) ∧
  (∀ o ∈ disc, o.order.length < allowed_nexts.length) ∧
  (∀ o ∈ disc, soundPartialOrder allowed_nexts anchors o.order) ∧
  (∀ o ∈ full, o.order.length = allowed_nexts.length ∧
    (∀ x ∈ o.order, x < allowed_nexts.length) ∧
    soundPartialOrder allowed_nexts anchors o.order) ∧
  (∀ p ∈ disc, ¬ p ∈ stack →
    ∀ cands, possible_next_states p allowed_nexts allowed_nexts.length anchors
        = some cands →
      ∀ q ∈ cands, (q.order.length = allowed_nexts.length → q ∈ full) ∧
        (q.order.length ≠ allowed_nexts.length → q ∈ disc))

/-! ### Generic helper lemmas -/

theorem lookup_mem {l : List (ℕ × List ℕ)} {a : ℕ} {s : List ℕ}
    (h : l.lookup a = some s) : (a, s) ∈ l := by
  rcases List.lookup_eq_some_iff.mp h with ⟨l₁, l₂, rfl, -⟩
  simp

theorem lookup_mem_of_mem_keys {l : List (ℕ × List ℕ)} {a : ℕ}
    (h : a ∈ l.map Prod.fst) : ∃ s, l.lookup a = some s ∧ (a, s) ∈ l := by
  have hs : (l.lookup a).isSome := by
    rw [List.lookup_isSome_iff]
    rcases List.mem_map.mp h with ⟨p, hp, rfl⟩
    exact ⟨p, hp, by simp⟩
  rcases Option.isSome_iff_exists.mp hs with ⟨s, hls⟩
  exact ⟨s, hls, lookup_mem hls⟩

theorem foldl_preserves {α β : Type} (P : β → Prop) (f : β → α → β) (l : List α)
    (init : β) (h0 : P init) (hstep : ∀ b a, a ∈ l → P b → P (f b a)) :
    P (l.foldl f init) := by
  induction l generalizing init with
  | nil => exact h0
  | cons x xs ih =>
    exact ih (f init x) (hstep init x (by simp) h0)
      (fun b a ha hb => hstep b a (List.mem_cons_of_mem _ ha) hb)

theorem head?_of_ne_nil {α : Type} {l : List α} (h : l ≠ []) :
    ∃ r, l.head? = some r ∧ r ∈ l := by
  cases l with
  | nil => exact absurd rfl h
  | cons a t => exact ⟨a, rfl, by simp⟩

/-! ### Claim C5: the cost model -/

/-- Claim C5 (code bug): `evaluate_cost` does not compute the documented
per-item displacement.  On the permutations `[0, 2, 1]` (candidate) and
`[1, 2, 0]` (desired) the source returns `|0-1| + |2-2| + |1-0| = 2`
(positionwise differences of sketch numbers), while the sum over items of
the distance between the item's position in the candidate and its
position in the desired order is `2 + 2 + 0 = 4`. -/
theorem evaluate_cost_positionwise_ne_displacement :
    evaluate_cost ⟨[0, 2, 1]⟩ [1, 2, 0] = 2 ∧
    specDisplacementCost ⟨[0, 2, 1]⟩ [1, 2, 0] = 4 := by
  constructor <;> rfl

/-! ### Claim C2: the selector -/

/-- Claim C2 (counterexample): with the test scenario's feasibility
relation and no desired order, every complete candidate has the same
(uniform) cost, yet `find_best_order` returns `[2, 1, 0]` — the first
candidate in iteration order, exactly as the repository's own test
expects — although the candidate `[0, 1, 2]` is lexicographically
smaller.  So the selector does not pick the lexicographically smallest
minimum-cost sequence. -/
theorem find_best_order_not_lex_smallest :
    find_best_order allowedThree noAnchors none = Except.ok ⟨[2, 1, 0]⟩ ∧
    find_all_orders allowedThree noAnchors = some [⟨[2, 1, 0]⟩, ⟨[0, 1, 2]⟩] ∧
    lexLt [0, 1, 2] [2, 1, 0] = true :=
  ⟨rfl, rfl, rfl⟩

theorem find_closest_to_desired_spec (orders : List SketchOrder) (desired : List ℕ)
    (h : orders ≠ []) :
    ∃ r, find_closest_to_desired orders desired = some r ∧ r ∈ orders ∧
      ∀ o ∈ orders, evaluate_cost r desired ≤ evaluate_cost o desired := by
  classical
  have hne : ((orders.map fun candidate =>
      (candidate, evaluate_cost candidate desired)).map Prod.snd) ≠ [] := by
    intro hnil
    exact h (by simpa [List.map_eq_nil_iff] using hnil)
  obtain ⟨m, hm⟩ : ∃ m, ((orders.map fun candidate =>
      (candidate, evaluate_cost candidate desired)).map Prod.snd).min? = some m := by
    cases hmin : ((orders.map fun candidate =>
        (candidate, evaluate_cost candidate desired)).map Prod.snd).min? with
    | none => exact absurd (List.min?_eq_none_iff.mp hmin) hne
    | some m => exact ⟨m, rfl⟩
  have hmem := List.min?_mem (fun a b => min_choice a b) hm
  have hle : ∀ b ∈ (orders.map fun candidate =>
      (candidate, evaluate_cost candidate desired)).map Prod.snd, m ≤ b :=
    (List.le_min?_iff (fun _ _ _ => le_min_iff) hm).mp le_rfl
  rcases List.mem_map.mp hmem with ⟨p, hp, hpm⟩
  have hfil : p ∈ (orders.map fun candidate =>
      (candidate, evaluate_cost candidate desired)).filter fun q => q.2 = m := by
    rw [List.mem_filter]
    exact ⟨hp, by simp [hpm]⟩
  have hfilne : ((orders.map fun candidate =>
      (candidate, evaluate_cost candidate desired)).filter fun q => q.2 = m).map
        Prod.fst ≠ [] := by
    intro hnil
    have hmm : p.1 ∈ (((orders.map fun candidate =>
        (candidate, evaluate_cost candidate desired)).filter fun q => q.2 = m).map
          Prod.fst) := List.mem_map.mpr ⟨p, hfil, rfl⟩
    rw [hnil] at hmm
    simp at hmm
  obtain ⟨r, hr, hrm⟩ := head?_of_ne_nil hfilne
  have hres : find_closest_to_desired orders desired = some r := by
    simp only [find_closest_to_desired]
    rw [hm]
    exact hr
  rcases List.mem_map.mp hrm with ⟨q, hq, hqr⟩
  have hqc := (List.mem_filter.mp hq).1
  have hqm : q.2 = m := by simpa using (List.mem_filter.mp hq).2
  rcases List.mem_map.mp hqc with ⟨c, hc, hcq⟩
  have hcr : c = r := by rw [← hqr, ← hcq]
  subst hcr
  have hrc : evaluate_cost c desired = m := by
    rw [← hcq] at hqm
    simpa using hqm
  refine ⟨c, hres, hc, ?_⟩
  intro o ho
  rw [hrc]
  exact hle _ (List.mem_map.mpr ⟨(o, evaluate_cost o desired),
    List.mem_map.mpr ⟨o, ho, rfl⟩, rfl⟩)

/-- Claim C2 (amended): on a non-empty candidate list,
`find_closest_to_desired` returns a candidate achieving the minimum cost
against the desired order (which candidate of the minimum-cost tie set is
returned is fixed only by iteration order, not by lexicographic
comparison).  As a pure function it trivially returns the same result on
the same arguments. -/
theorem find_closest_to_desired_min_cost (orders : List SketchOrder)
    (desired : List ℕ) (h : orders ≠ []) :
    ∃ r, find_closest_to_desired orders desired = some r ∧ r ∈ orders ∧
      ∀ o ∈ orders, evaluate_cost r desired ≤ evaluate_cost o desired :=
  find_closest_to_desired_spec orders desired h

/-- Witness for the amended claim C2, at the two-candidate list
`[[0, 1]], [[1, 0]]` with desired order `[1, 0]`. -/
theorem find_closest_to_desired_min_cost_witness :
    ([⟨[0, 1]⟩, ⟨[1, 0]⟩] : List SketchOrder) ≠ [] ∧
    ∃ r, find_closest_to_desired [⟨[0, 1]⟩, ⟨[1, 0]⟩] [1, 0] = some r ∧
      r ∈ ([⟨[0, 1]⟩, ⟨[1, 0]⟩] : List SketchOrder) ∧
      ∀ o ∈ ([⟨[0, 1]⟩, ⟨[1, 0]⟩] : List SketchOrder),
        evaluate_cost r [1, 0] ≤ evaluate_cost o [1, 0] :=
  ⟨by decide, find_closest_to_desired_min_cost _ _ (by decide)⟩

/-! ### The greedy optimizer -/

theorem cons_set_perm (t : List ℕ) (k : ℕ) (a : ℕ) (hk : k < t.length) :
    List.Perm (t.getD k 0 :: t.set k a) (a :: t) := by
  induction t generalizing k with
  | nil => simp at hk
  | cons b t' ih =>
    cases k with
    | zero => simpa using List.Perm.swap a b t'
    | succ k' =>
      have hk' : k' < t'.length := by simpa using hk
      have h1 : List.Perm (t'.getD k' 0 :: b :: t'.set k' a)
          (b :: t'.getD k' 0 :: t'.set k' a) := List.Perm.swap _ _ _
      have h2 : List.Perm (b :: t'.getD k' 0 :: t'.set k' a) (b :: a :: t') :=
        (ih k' hk').cons b
      have h3 : List.Perm (b :: a :: t') (a :: b :: t') := List.Perm.swap _ _ _
      simpa using (h1.trans h2).trans h3

theorem swapPositions_perm (l : List ℕ) (i j : ℕ) (hij : i < j) (hj : j < l.length) :
    List.Perm (swapPositions l i j) l := by
  induction i generalizing l j with
  | zero =>
    cases l with
    | nil => simp at hj
    | cons x t =>
      cases j with
      | zero => simp at hij
      | succ k =>
        have hk : k < t.length := by simpa using hj
        simpa [swapPositions] using cons_set_perm t k x hk
  | succ i' ih =>
    cases l with
    | nil => simp at hj
    | cons x t =>
      cases j with
      | zero => simp at hij
      | succ k =>
        have hik : i' < k := by omega
        have hk : k < t.length := by simpa using hj
        have := ih t k hik hk
        simpa [swapPositions] using this.cons x

theorem swapPairs_mem {n i j : ℕ} (h : (i, j) ∈ swapPairs n) : i < j ∧ j < n := by
  rcases List.mem_flatMap.mp h with ⟨i', hi', hj⟩
  rcases List.mem_map.mp hj with ⟨j', hj', hpair⟩
  obtain ⟨rfl, rfl⟩ : i' = i ∧ j' = j := by
    constructor <;> [exact congrArg Prod.fst hpair; exact congrArg Prod.snd hpair]
  have h1 := List.mem_range.mp hi'
  rcases List.mem_range'.mp hj' with ⟨c, hc, rfl⟩
  omega

/-- Invariants of the swap scan used everywhere below: the reported
overlap is the overlap of the reported order, it never exceeds the input
order's overlap, and the reported order is a rearrangement of the
input. -/
theorem find_best_swap_invariant (overlap_mat : ℕ → ℕ → ℕ) (so : SketchOrder)
    (desired : Option (List ℕ)) :
    (find_best_swap overlap_mat so desired).2.1 =
        calc_order_overlap overlap_mat (find_best_swap overlap_mat so desired).1 ∧
      (find_best_swap overlap_mat so desired).2.1 ≤ calc_order_overlap overlap_mat so ∧
      List.Perm (find_best_swap overlap_mat so desired).1.order so.order := by
  unfold find_best_swap
  refine foldl_preserves (fun st : SketchOrder × ℕ × Option ℕ =>
      st.2.1 = calc_order_overlap overlap_mat st.1 ∧
      st.2.1 ≤ calc_order_overlap overlap_mat so ∧ List.Perm st.1.order so.order)
    _ _ _ ⟨rfl, le_rfl, List.Perm.refl _⟩ ?_
  intro b ij hij hb
  rcases hb with ⟨h1, h2, h3⟩
  dsimp only
  split
  · rename_i hcond
    refine ⟨rfl, ?_, ?_⟩
    · rcases hcond with hlt | ⟨heq, -⟩
      · exact le_of_lt (lt_of_lt_of_le hlt h2)
      · exact heq ▸ h2
    · rcases swapPairs_mem hij with ⟨hij', hj⟩
      exact swapPositions_perm so.order ij.1 ij.2 hij' hj
  · exact ⟨h1, h2, h3⟩

/-- With no desired order the swap scan keeps the cost at `float("inf")`
and only ever accepts strictly overlap-decreasing swaps. -/
theorem find_best_swap_none (overlap_mat : ℕ → ℕ → ℕ) (so : SketchOrder) :
    (find_best_swap overlap_mat so none).2.2 = none ∧
      (find_best_swap overlap_mat so none).2.1 ≤ calc_order_overlap overlap_mat so ∧
      ((find_best_swap overlap_mat so none).1 = so ∨
        (find_best_swap overlap_mat so none).2.1 < calc_order_overlap overlap_mat so) := by
  unfold find_best_swap
  refine foldl_preserves (fun st : SketchOrder × ℕ × Option ℕ =>
      st.2.2 = none ∧ st.2.1 ≤ calc_order_overlap overlap_mat so ∧
        (st.1 = so ∨ st.2.1 < calc_order_overlap overlap_mat so))
    _ _ _ ⟨rfl, le_rfl, Or.inl rfl⟩ ?_
  intro b ij hij hb
  rcases hb with ⟨h1, h2, h3⟩
  dsimp only
  split
  · rename_i hcond
    rcases hcond with hlt | ⟨-, hcost⟩
    · exact ⟨h1, le_of_lt (lt_of_lt_of_le hlt h2), Or.inr (lt_of_lt_of_le hlt h2)⟩
    · rw [h1] at hcost
      simp [costLt] at hcost
  · exact ⟨h1, h2, h3⟩

/-- One unfolding of the greedy `while True:` loop. -/
theorem greedy_algo_go_eq (M : ℕ → ℕ → ℕ) (d : Option (List ℕ)) (ord : SketchOrder)
    (o : ℕ) (c : Option ℕ) :
    greedy_algo_go M d ord o c =
      match find_best_swap M ord d with
      | (new_order, new_overlap, new_cost) =>
        if new_overlap < o ∨ (new_overlap = o ∧ costLt new_cost c) then
          greedy_algo_go M d new_order new_overlap new_cost
        else ord := by
  rw [greedy_algo_go]
  rcases hfbs : find_best_swap M ord d with ⟨no, nov, nc⟩
  dsimp only
  rw [dite_eq_ite]

theorem greedy_algo_go_overlap_le (M : ℕ → ℕ → ℕ) (d : Option (List ℕ))
    (ord : SketchOrder) (o : ℕ) (c : Option ℕ) :
    o = calc_order_overlap M ord →
      calc_order_overlap M (greedy_algo_go M d ord o c) ≤ o := by
  induction ord, o, c using greedy_algo_go.induct M d with
  | case1 ord o c new_order new_overlap new_cost hfbs hcond ih =>
    intro ho
    rw [greedy_algo_go_eq, hfbs]
    dsimp only
    rw [if_pos hcond]
    have hno : new_overlap = calc_order_overlap M new_order := by
      have h1 := (find_best_swap_invariant M ord d).1
      rw [hfbs] at h1
      exact h1
    have hle : new_overlap ≤ o := by
      rcases hcond with hlt | ⟨heq, -⟩
      · exact le_of_lt hlt
      · exact le_of_eq heq
    exact le_trans (ih hno) hle
  | case2 ord o c new_order new_overlap new_cost hfbs hcond =>
    intro ho
    rw [greedy_algo_go_eq, hfbs]
    dsimp only
    rw [if_neg hcond, ← ho]

theorem greedy_algo_go_perm (M : ℕ → ℕ → ℕ) (d : Option (List ℕ))
    (ord : SketchOrder) (o : ℕ) (c : Option ℕ) :
    List.Perm (greedy_algo_go M d ord o c).order ord.order := by
  induction ord, o, c using greedy_algo_go.induct M d with
  | case1 ord o c new_order new_overlap new_cost hfbs hcond ih =>
    rw [greedy_algo_go_eq, hfbs]
    dsimp only
    rw [if_pos hcond]
    have hperm := (find_best_swap_invariant M ord d).2.2
    rw [hfbs] at hperm
    exact ih.trans hperm
  | case2 ord o c new_order new_overlap new_cost hfbs hcond =>
    rw [greedy_algo_go_eq, hfbs]
    dsimp only
    rw [if_neg hcond]

theorem greedy_algo_go_none_exit (M : ℕ → ℕ → ℕ) (ord : SketchOrder) (o : ℕ)
    (c : Option ℕ) :
    o = calc_order_overlap M ord →
      ¬ (find_best_swap M (greedy_algo_go M none ord o c) none).2.1 <
          calc_order_overlap M (greedy_algo_go M none ord o c) := by
  induction ord, o, c using greedy_algo_go.induct M none with
  | case1 ord o c new_order new_overlap new_cost hfbs hcond ih =>
    intro ho
    rw [greedy_algo_go_eq, hfbs]
    dsimp only
    rw [if_pos hcond]
    have hno : new_overlap = calc_order_overlap M new_order := by
      have h1 := (find_best_swap_invariant M ord none).1
      rw [hfbs] at h1
      exact h1
    exact ih hno
  | case2 ord o c new_order new_overlap new_cost hfbs hcond =>
    intro ho
    rw [greedy_algo_go_eq, hfbs]
    dsimp only
    rw [if_neg hcond, hfbs]
    dsimp only
    rw [← ho]
    intro hlt
    exact hcond (Or.inl hlt)

theorem greedy_algo_loop_exists (M : ℕ → ℕ → ℕ) (d : Option (List ℕ))
    (ord : SketchOrder) (o : ℕ) (c : Option ℕ) :
    ∃ n, greedy_algo_loop M d n ord o c = some (greedy_algo_go M d ord o c) := by
  induction ord, o, c using greedy_algo_go.induct M d with
  | case1 ord o c new_order new_overlap new_cost hfbs hcond ih =>
    rcases ih with ⟨n, hn⟩
    refine ⟨n + 1, ?_⟩
    rw [greedy_algo_go_eq, hfbs]
    dsimp only
    rw [if_pos hcond]
    unfold greedy_algo_loop
    rw [hfbs]
    dsimp only
    rw [if_pos hcond]
    exact hn
  | case2 ord o c new_order new_overlap new_cost hfbs hcond =>
    refine ⟨1, ?_⟩
    rw [greedy_algo_go_eq, hfbs]
    dsimp only
    rw [if_neg hcond]
    unfold greedy_algo_loop
    rw [hfbs]
    dsimp only
    rw [if_neg hcond]

/-- A fuel-based run that finishes agrees with `greedy_algo_go`. -/
theorem greedy_algo_loop_agrees (M : ℕ → ℕ → ℕ) (d : Option (List ℕ)) :
    ∀ (n : ℕ) (ord : SketchOrder) (o : ℕ) (c : Option ℕ) (res : SketchOrder),
      greedy_algo_loop M d n ord o c = some res → greedy_algo_go M d ord o c = res := by
  intro n
  induction n with
  | zero =>
    intro ord o c res h
    exact absurd h (by simp [greedy_algo_loop])
  | succ n ih =>
    intro ord o c res h
    rw [greedy_algo_go_eq]
    rcases hfbs : find_best_swap M ord d with ⟨no, nov, nc⟩
    unfold greedy_algo_loop at h
    rw [hfbs] at h
    dsimp only at h ⊢
    by_cases hcond : nov < o ∨ (nov = o ∧ costLt nc c)
    · rw [if_pos hcond] at h ⊢
      exact ih no nov nc res h
    · rw [if_neg hcond] at h ⊢
      exact Option.some.inj h

/-! ### Claims C6, C7, C8, C10: the greedy optimizer -/

/-- Claim C6 (counterexample): with the overlap matrix in which only
sketches 0 and 1 conflict and the desired order `[1, 0, 2]`,
`greedy_algo` started from `[0, 1, 2]` returns `[0, 2, 1]`, but applying
`greedy_algo` to that output yields `[1, 2, 0]`: the optimizer is not
idempotent when a desired order is supplied, because each fresh run
restarts the best cost at `float("inf")` and therefore accepts
equal-overlap swaps that the previous run had already rejected. -/
theorem greedy_algo_not_idempotent :
    greedy_algo overlapCex ⟨[0, 1, 2]⟩ (some [1, 0, 2]) = ⟨[0, 2, 1]⟩ ∧
    greedy_algo overlapCex
        (greedy_algo overlapCex ⟨[0, 1, 2]⟩ (some [1, 0, 2])) (some [1, 0, 2]) =
      ⟨[1, 2, 0]⟩ ∧
    greedy_algo overlapCex
        (greedy_algo overlapCex ⟨[0, 1, 2]⟩ (some [1, 0, 2])) (some [1, 0, 2]) ≠
      greedy_algo overlapCex ⟨[0, 1, 2]⟩ (some [1, 0, 2]) := by
  have hloop1 : greedy_algo_loop overlapCex (some [1, 0, 2]) 5 ⟨[0, 1, 2]⟩
      (calc_order_overlap overlapCex ⟨[0, 1, 2]⟩) none = some ⟨[0, 2, 1]⟩ := by decide
  have hloop2 : greedy_algo_loop overlapCex (some [1, 0, 2]) 5 ⟨[0, 2, 1]⟩
      (calc_order_overlap overlapCex ⟨[0, 2, 1]⟩) none = some ⟨[1, 2, 0]⟩ := by decide
  have h1 : greedy_algo overlapCex ⟨[0, 1, 2]⟩ (some [1, 0, 2]) = ⟨[0, 2, 1]⟩ :=
    greedy_algo_loop_agrees _ _ _ _ _ _ _ hloop1
  have h2 : greedy_algo overlapCex ⟨[0, 2, 1]⟩ (some [1, 0, 2]) = ⟨[1, 2, 0]⟩ :=
    greedy_algo_loop_agrees _ _ _ _ _ _ _ hloop2
  refine ⟨h1, by rw [h1]; exact h2, ?_⟩
  rw [h1, h2]
  decide

/-- Claim C6 (amended): when no desired order is supplied, `greedy_algo`
is idempotent — applying it to its own output returns that output
unchanged. -/
theorem greedy_algo_idempotent_no_desired (M : ℕ → ℕ → ℕ) (x : SketchOrder) :
    greedy_algo M (greedy_algo M x none) none = greedy_algo M x none := by
  unfold greedy_algo
  rw [greedy_algo_go_eq]
  rcases hfbs : find_best_swap M
    (greedy_algo_go M none x (calc_order_overlap M x) none) none with ⟨no, nov, nc⟩
  have hnc : nc = none := by
    have h1 := (find_best_swap_none M
      (greedy_algo_go M none x (calc_order_overlap M x) none)).1
    rw [hfbs] at h1
    exact h1
  have hexit := greedy_algo_go_none_exit M x (calc_order_overlap M x) none rfl
  rw [hfbs] at hexit
  dsimp only at hexit ⊢
  rw [if_neg]
  rintro (hlt | ⟨-, hcost⟩)
  · exact hexit hlt
  · rw [hnc] at hcost
    simp [costLt] at hcost

/-- Claim C7: the summed adjacent overlap of the order returned by
`greedy_algo` never exceeds that of the initial order, for every overlap
matrix, initial order and optional desired order. -/
theorem greedy_algo_overlap_monotone (M : ℕ → ℕ → ℕ) (x : SketchOrder)
    (d : Option (List ℕ)) :
    calc_order_overlap M (greedy_algo M x d) ≤ calc_order_overlap M x :=
  greedy_algo_go_overlap_le M d x (calc_order_overlap M x) none rfl

/-- Claim C10: the order returned by `greedy_algo` is a rearrangement of
the initial order — same length and same multiset of sketch indices. -/
theorem greedy_algo_rearranges (M : ℕ → ℕ → ℕ) (x : SketchOrder)
    (d : Option (List ℕ)) :
    (greedy_algo M x d).order.length = x.order.length ∧
      List.Perm (greedy_algo M x d).order x.order :=
  ⟨(greedy_algo_go_perm M d x (calc_order_overlap M x) none).length_eq,
    greedy_algo_go_perm M d x (calc_order_overlap M x) none⟩

/-- Claim C8: on every instance the greedy iteration terminates — some
finite fuel makes the literal `while True:` loop return, and the order it
returns is `greedy_algo`'s result. -/
theorem greedy_algo_terminates (M : ℕ → ℕ → ℕ) (x : SketchOrder)
    (d : Option (List ℕ)) :
    ∃ n, greedy_algo_loop M d n x (calc_order_overlap M x) none =
      some (greedy_algo M x d) :=
  greedy_algo_loop_exists M d x (calc_order_overlap M x) none

/-! ### The exhaustive search: successor generation -/

theorem getLastD_mem {l : List ℕ} (h : l ≠ []) (d : ℕ) : l.getLastD d ∈ l := by
  rw [List.getLastD_eq_getLast?, List.getLast?_eq_getLast l h]
  exact List.getLast_mem h

theorem getD_append_length (l : List ℕ) (x d : ℕ) : (l ++ [x]).getD l.length d = x := by
  rw [List.getD_append_right _ _ _ _ le_rfl]
  simp

theorem getD_mem {l : List ℕ} {n : ℕ} (h : n < l.length) (d : ℕ) : l.getD n d ∈ l := by
  rw [List.getD_eq_getElem?_getD, List.getElem?_eq_getElem h]
  exact List.getElem_mem h

/-- Exhaustive case analysis of a successful `possible_next_states` call. -/
theorem pns_cases (allowed : List (ℕ × List ℕ)) (anchors : ℕ → Option ℕ) (num : ℕ)
    (p : SketchOrder) (cands : List SketchOrder)
    (h : possible_next_states p allowed num anchors = some cands) :
    (p.order = [] ∧ ((∃ a, anchors 0 = some a ∧ cands = [⟨[a]⟩]) ∨
      (anchors 0 = none ∧ cands = (List.range num).map fun f => ⟨[f]⟩))) ∨
    (p.order ≠ [] ∧ ∃ s, allowed.lookup (p.order.getLastD 0) = some s ∧
      ((anchors p.order.length = none ∧
        cands = (s.filter fun n => ¬ n ∈ p.order).map fun n => ⟨p.order ++ [n]⟩) ∨
      (∃ nx, anchors p.order.length = some nx ∧
        (((nx ∈ s ∧ ¬ nx ∈ p.order) ∧ cands = [⟨p.order ++ [nx]⟩]) ∨
          (¬ (nx ∈ s ∧ ¬ nx ∈ p.order) ∧ cands = []))))) := by
  unfold possible_next_states at h
  by_cases hord : p.order = []
  · rw [if_pos hord] at h
    refine Or.inl ⟨hord, ?_⟩
    cases h0 : anchors 0 with
    | some a =>
      rw [h0] at h
      exact Or.inl ⟨a, rfl, (Option.some.inj h).symm⟩
    | none =>
      rw [h0] at h
      exact Or.inr ⟨rfl, (Option.some.inj h).symm⟩
  · rw [if_neg hord] at h
    dsimp only at h
    refine Or.inr ⟨hord, ?_⟩
    cases hl : allowed.lookup (p.order.getLastD 0) with
    | none =>
      cases ha : anchors p.order.length with
      | none => rw [ha, hl] at h; exact absurd h (by simp)
      | some nx => rw [ha, hl] at h; exact absurd h (by simp)
    | some s =>
      refine ⟨s, rfl, ?_⟩
      cases ha : anchors p.order.length with
      | none =>
        rw [ha, hl] at h
        exact Or.inl ⟨rfl, (Option.some.inj h).symm⟩
      | some nx =>
        rw [ha, hl] at h
        dsimp only at h
        refine Or.inr ⟨nx, rfl, ?_⟩
        by_cases hc : nx ∈ s ∧ ¬ nx ∈ p.order
        · rw [if_pos hc] at h
          exact Or.inl ⟨hc, (Option.some.inj h).symm⟩
        · rw [if_neg hc] at h
          exact Or.inr ⟨hc, (Option.some.inj h).symm⟩

/-- Every successor of a sound partial order is sound. -/
theorem pns_sound (allowed : List (ℕ × List ℕ)) (anchors : ℕ → Option ℕ) (num : ℕ)
    (p : SketchOrder) (cands : List SketchOrder)
    (hp : soundPartialOrder allowed anchors p.order)
    (h : possible_next_states p allowed num anchors = some cands) :
    ∀ q ∈ cands, soundPartialOrder allowed anchors q.order := by
  intro q hq
  rcases hp with ⟨hnd, hch, har⟩
  rcases pns_cases allowed anchors num p cands h with
    ⟨hord, ⟨a, h0, rfl⟩ | ⟨h0, rfl⟩⟩ | ⟨hord, s, hl, ⟨ha, rfl⟩ | ⟨nx, ha, ⟨hc, rfl⟩ | ⟨-, rfl⟩⟩⟩
  · have hq' : q = ⟨[a]⟩ := by simpa using hq
    subst hq'
    refine ⟨by simp, by simp, ?_⟩
    intro pos b hb hlt
    have hpos : pos = 0 := by simpa using Nat.lt_one_iff.mp (by simpa using hlt)
    subst hpos
    rw [h0] at hb
    simpa using Option.some.inj hb
  · rcases List.mem_map.mp hq with ⟨f, -, rfl⟩
    refine ⟨by simp, by simp, ?_⟩
    intro pos b hb hlt
    have hpos : pos = 0 := by simpa using Nat.lt_one_iff.mp (by simpa using hlt)
    subst hpos
    rw [h0] at hb
    exact absurd hb (by simp)
  · rcases List.mem_map.mp hq with ⟨n, hn, rfl⟩
    have hns : n ∈ s ∧ ¬ n ∈ p.order := by
      have := List.mem_filter.mp hn
      exact ⟨this.1, by simpa using this.2⟩
    refine ⟨?_, ?_, ?_⟩
    · rw [List.nodup_append]
      exact ⟨hnd, by simp, by simpa [List.disjoint_left] using fun hmem => hns.2 hmem⟩
    · rw [List.chain'_append]
      refine ⟨hch, by simp, ?_⟩
      intro x hx y hy
      have hx' : x = p.order.getLastD 0 := by
        rw [List.getLastD_eq_getLast?]
        rw [hx]
        rfl
      have hy' : y = n := (by simpa using hy : n = y).symm
      subst hx'
      subst hy'
      exact ⟨s, hl, hns.1⟩
    · intro pos b hb hlt
      rw [List.length_append, List.length_singleton] at hlt
      rcases Nat.lt_succ_iff_lt_or_eq.mp hlt with hlt' | rfl
      · rw [List.getD_append _ _ _ _ hlt']
        exact har pos b hb hlt'
      · rw [ha] at hb
        exact absurd hb (by simp)
  · have hq' : q = ⟨p.order ++ [nx]⟩ := by simpa using hq
    subst hq'
    refine ⟨?_, ?_, ?_⟩
    · rw [List.nodup_append]
      exact ⟨hnd, by simp, by simpa [List.disjoint_left] using fun hmem => hc.2 hmem⟩
    · rw [List.chain'_append]
      refine ⟨hch, by simp, ?_⟩
      intro x hx y hy
      have hx' : x = p.order.getLastD 0 := by
        rw [List.getLastD_eq_getLast?]
        rw [hx]
        rfl
      have hy' : y = nx := (by simpa using hy : nx = y).symm
      subst hx'
      subst hy'
      exact ⟨s, hl, hc.1⟩
    · intro pos b hb hlt
      rw [List.length_append, List.length_singleton] at hlt
      rcases Nat.lt_succ_iff_lt_or_eq.mp hlt with hlt' | rfl
      · rw [List.getD_append _ _ _ _ hlt']
        exact har pos b hb hlt'
      · rw [ha] at hb
        obtain rfl : nx = b := Option.some.inj hb
        exact getD_append_length _ _ _
  · exact absurd hq (by simp)

/-- Shape of a successor: the parent order extended by one new sketch,
which comes from an anchor, the initial range, or a successor set. -/
theorem pns_shape (allowed : List (ℕ × List ℕ)) (anchors : ℕ → Option ℕ) (num : ℕ)
    (p : SketchOrder) (cands : List SketchOrder) (q : SketchOrder)
    (h : possible_next_states p allowed num anchors = some cands) (hq : q ∈ cands) :
    ∃ x, q.order = p.order ++ [x] ∧
      ((∃ pos, anchors pos = some x) ∨ x ∈ List.range num ∨
        (∃ s, allowed.lookup (p.order.getLastD 0) = some s ∧ x ∈ s)) := by
  rcases pns_cases allowed anchors num p cands h with
    ⟨hord, ⟨a, h0, rfl⟩ | ⟨h0, rfl⟩⟩ | ⟨hord, s, hl, ⟨ha, rfl⟩ | ⟨nx, ha, ⟨hc, rfl⟩ | ⟨-, rfl⟩⟩⟩
  · have hq' : q = ⟨[a]⟩ := by simpa using hq
    subst hq'
    exact ⟨a, by simp [hord], Or.inl ⟨0, h0⟩⟩
  · rcases List.mem_map.mp hq with ⟨f, hf, rfl⟩
    exact ⟨f, by simp [hord], Or.inr (Or.inl hf)⟩
  · rcases List.mem_map.mp hq with ⟨n, hn, rfl⟩
    exact ⟨n, rfl, Or.inr (Or.inr ⟨s, hl, (List.mem_filter.mp hn).1⟩)⟩
  · have hq' : q = ⟨p.order ++ [nx]⟩ := by simpa using hq
    subst hq'
    exact ⟨nx, rfl, Or.inl ⟨p.order.length, ha⟩⟩
  · exact absurd hq (by simp)

/-- When every index below `N = allowed.length` is a key of the relation,
successor generation never raises `KeyError` on in-range orders. -/
theorem pns_isSome (allowed : List (ℕ × List ℕ)) (anchors : ℕ → Option ℕ)
    (hkeys : allowed.map Prod.fst = List.range allowed.length)
    (p : SketchOrder) (hel : ∀ x ∈ p.order, x < allowed.length) :
    ∃ cands, possible_next_states p allowed allowed.length anchors = some cands := by
  unfold possible_next_states
  by_cases hord : p.order = []
  · rw [if_pos hord]
    cases anchors 0 with
    | some a => exact ⟨_, rfl⟩
    | none => exact ⟨_, rfl⟩
  · rw [if_neg hord]
    dsimp only
    have hlast : p.order.getLastD 0 ∈ p.order := getLastD_mem hord 0
    have hlt : p.order.getLastD 0 < allowed.length := hel _ hlast
    have hkey : p.order.getLastD 0 ∈ allowed.map Prod.fst := by
      rw [hkeys]
      exact List.mem_range.mpr hlt
    rcases lookup_mem_of_mem_keys hkey with ⟨s, hs, -⟩
    rw [hs]
    cases anchors p.order.length with
    | none => exact ⟨_, rfl⟩
    | some nx =>
      dsimp only
      by_cases hc : nx ∈ s ∧ ¬ nx ∈ p.order
      · rw [if_pos hc]
        exact ⟨_, rfl⟩
      · rw [if_neg hc]
        exact ⟨_, rfl⟩

/-! ### The exhaustive search: the candidate-processing loop body -/

theorem addOrder_mem (x : SketchOrder) (l : List SketchOrder) (o : SketchOrder) :
    o ∈ addOrder x l ↔ o ∈ l ∨ o = x := by
  unfold addOrder
  by_cases hx : x ∈ l
  · rw [if_pos hx]
    constructor
    · exact Or.inl
    · rintro (h | rfl)
      · exact h
      · exact hx
  · rw [if_neg hx]
    simp

theorem processCandidates_mem (num : ℕ) :
    ∀ (cands full disc stack : List SketchOrder),
      (∀ o, o ∈ (processCandidates num cands full disc stack).1 ↔
        o ∈ full ∨ (o ∈ cands ∧ o.order.length = num)) ∧
      (∀ o, o ∈ (processCandidates num cands full disc stack).2.1 ↔
        o ∈ disc ∨ (o ∈ cands ∧ o.order.length ≠ num)) ∧
      (∀ o, o ∈ (processCandidates num cands full disc stack).2.2 ↔
        o ∈ stack ∨ (o ∈ cands ∧ o.order.length ≠ num ∧ ¬ o ∈ disc)) := by
  intro cands
  induction cands with
  | nil =>
    intro full disc stack
    refine ⟨fun o => ?_, fun o => ?_, fun o => ?_⟩ <;> simp [processCandidates]
  | cons c rest ih =>
    intro full disc stack
    unfold processCandidates
    by_cases hlen : c.order.length = num
    · rw [if_pos hlen]
      obtain ⟨ih1, ih2, ih3⟩ := ih (addOrder c full) disc stack
      refine ⟨fun o => ?_, fun o => ?_, fun o => ?_⟩
      · rw [ih1, addOrder_mem]
        constructor
        · rintro ((h | rfl) | ⟨h1, h2⟩)
          · exact Or.inl h
          · exact Or.inr ⟨by simp, hlen⟩
          · exact Or.inr ⟨List.mem_cons_of_mem _ h1, h2⟩
        · rintro (h | ⟨h1, h2⟩)
          · exact Or.inl (Or.inl h)
          · rcases List.mem_cons.mp h1 with rfl | h1'
            · exact Or.inl (Or.inr rfl)
            · exact Or.inr ⟨h1', h2⟩
      · rw [ih2]
        constructor
        · rintro (h | ⟨h1, h2⟩)
          · exact Or.inl h
          · exact Or.inr ⟨List.mem_cons_of_mem _ h1, h2⟩
        · rintro (h | ⟨h1, h2⟩)
          · exact Or.inl h
          · rcases List.mem_cons.mp h1 with rfl | h1'
            · exact absurd hlen h2
            · exact Or.inr ⟨h1', h2⟩
      · rw [ih3]
        constructor
        · rintro (h | ⟨h1, h2, h3⟩)
          · exact Or.inl h
          · exact Or.inr ⟨List.mem_cons_of_mem _ h1, h2, h3⟩
        · rintro (h | ⟨h1, h2, h3⟩)
          · exact Or.inl h
          · rcases List.mem_cons.mp h1 with rfl | h1'
            · exact absurd hlen h2
            · exact Or.inr ⟨h1', h2, h3⟩
    · rw [if_neg hlen]
      by_cases hcd : c ∈ disc
      · rw [if_pos hcd]
        obtain ⟨ih1, ih2, ih3⟩ := ih full disc stack
        refine ⟨fun o => ?_, fun o => ?_, fun o => ?_⟩
        · rw [ih1]
          constructor
          · rintro (h | ⟨h1, h2⟩)
            · exact Or.inl h
            · exact Or.inr ⟨List.mem_cons_of_mem _ h1, h2⟩
          · rintro (h | ⟨h1, h2⟩)
            · exact Or.inl h
            · rcases List.mem_cons.mp h1 with rfl | h1'
              · exact absurd h2 hlen
              · exact Or.inr ⟨h1', h2⟩
        · rw [ih2]
          constructor
          · rintro (h | ⟨h1, h2⟩)
            · exact Or.inl h
            · exact Or.inr ⟨List.mem_cons_of_mem _ h1, h2⟩
          · rintro (h | ⟨h1, h2⟩)
            · exact Or.inl h
            · rcases List.mem_cons.mp h1 with rfl | h1'
              · exact Or.inl hcd
              · exact Or.inr ⟨h1', h2⟩
        · rw [ih3]
          constructor
          · rintro (h | ⟨h1, h2, h3⟩)
            · exact Or.inl h
            · exact Or.inr ⟨List.mem_cons_of_mem _ h1, h2, h3⟩
          · rintro (h | ⟨h1, h2, h3⟩)
            · exact Or.inl h
            · rcases List.mem_cons.mp h1 with rfl | h1'
              · exact absurd hcd h3
              · exact Or.inr ⟨h1', h2, h3⟩
      · rw [if_neg hcd]
        obtain ⟨ih1, ih2, ih3⟩ := ih full (disc ++ [c]) (c :: stack)
        refine ⟨fun o => ?_, fun o => ?_, fun o => ?_⟩
        · rw [ih1]
          constructor
          · rintro (h | ⟨h1, h2⟩)
            · exact Or.inl h
            · exact Or.inr ⟨List.mem_cons_of_mem _ h1, h2⟩
          · rintro (h | ⟨h1, h2⟩)
            · exact Or.inl h
            · rcases List.mem_cons.mp h1 with rfl | h1'
              · exact absurd h2 hlen
              · exact Or.inr ⟨h1', h2⟩
        · rw [ih2]
          constructor
          · rintro (h | ⟨h1, h2⟩)
            · rcases List.mem_append.mp h with h' | h'
              · exact Or.inl h'
              · obtain rfl : o = c := by simpa using h'
                exact Or.inr ⟨by simp, hlen⟩
            · exact Or.inr ⟨List.mem_cons_of_mem _ h1, h2⟩
          · rintro (h | ⟨h1, h2⟩)
            · exact Or.inl (List.mem_append.mpr (Or.inl h))
            · rcases List.mem_cons.mp h1 with rfl | h1'
              · exact Or.inl (List.mem_append.mpr (Or.inr (by simp)))
              · exact Or.inr ⟨h1', h2⟩
        · rw [ih3]
          constructor
          · rintro (h | ⟨h1, h2, h3⟩)
            · rcases List.mem_cons.mp h with rfl | h'
              · exact Or.inr ⟨by simp, hlen, hcd⟩
              · exact Or.inl h'
            · have h3' : ¬ o ∈ disc := fun hmem => h3 (List.mem_append.mpr (Or.inl hmem))
              exact Or.inr ⟨List.mem_cons_of_mem _ h1, h2, h3'⟩
          · rintro (h | ⟨h1, h2, h3⟩)
            · exact Or.inl (List.mem_cons_of_mem _ h)
            · rcases List.mem_cons.mp h1 with rfl | h1'
              · exact Or.inl (List.mem_cons_self _ _)
              · by_cases hoc : o = c
                · subst hoc
                  exact Or.inl (List.mem_cons_self _ _)
                · refine Or.inr ⟨h1', h2, fun hmem => ?_⟩
                  rcases List.mem_append.mp hmem with h' | h'
                  · exact h3 h'
                  · exact hoc (by simpa using h')

theorem processCandidates_length (num : ℕ) :
    ∀ (cands full disc stack : List SketchOrder),
      (processCandidates num cands full disc stack).2.2.length + disc.length =
        stack.length + (processCandidates num cands full disc stack).2.1.length := by
  intro cands
  induction cands with
  | nil =>
    intro full disc stack
    simp [processCandidates]
  | cons c rest ih =>
    intro full disc stack
    unfold processCandidates
    by_cases hlen : c.order.length = num
    · rw [if_pos hlen]
      exact ih (addOrder c full) disc stack
    · rw [if_neg hlen]
      by_cases hcd : c ∈ disc
      · rw [if_pos hcd]
        exact ih full disc stack
      · rw [if_neg hcd]
        have h1 := ih full (disc ++ [c]) (c :: stack)
        rw [List.length_append, List.length_singleton, List.length_cons] at h1
        omega

theorem processCandidates_disc_nodup (num : ℕ) :
    ∀ (cands full disc stack : List SketchOrder), disc.Nodup →
      (processCandidates num cands full disc stack).2.1.Nodup := by
  intro cands
  induction cands with
  | nil =>
    intro full disc stack hd
    simpa [processCandidates] using hd
  | cons c rest ih =>
    intro full disc stack hd
    unfold processCandidates
    by_cases hlen : c.order.length = num
    · rw [if_pos hlen]
      exact ih (addOrder c full) disc stack hd
    · rw [if_neg hlen]
      by_cases hcd : c ∈ disc
      · rw [if_pos hcd]
        exact ih full disc stack hd
      · rw [if_neg hcd]
        refine ih full (disc ++ [c]) (c :: stack) ?_
        rw [List.nodup_append]
        exact ⟨hd, by simp, by simpa [List.disjoint_left] using fun hmem => hcd hmem⟩

theorem processCandidates_stack_nodup (num : ℕ) :
    ∀ (cands full disc stack : List SketchOrder), disc.Nodup → stack.Nodup →
      (∀ o ∈ stack, o ∈ disc) →
      (processCandidates num cands full disc stack).2.2.Nodup := by
  intro cands
  induction cands with
  | nil =>
    intro full disc stack hd hs hsub
    simpa [processCandidates] using hs
  | cons c rest ih =>
    intro full disc stack hd hs hsub
    unfold processCandidates
    by_cases hlen : c.order.length = num
    · rw [if_pos hlen]
      exact ih (addOrder c full) disc stack hd hs hsub
    · rw [if_neg hlen]
      by_cases hcd : c ∈ disc
      · rw [if_pos hcd]
        exact ih full disc stack hd hs hsub
      · rw [if_neg hcd]
        refine ih full (disc ++ [c]) (c :: stack) ?_ ?_ ?_
        · rw [List.nodup_append]
          exact ⟨hd, by simp, by simpa [List.disjoint_left] using fun hmem => hcd hmem⟩
        · exact List.nodup_cons.mpr ⟨fun hmem => hcd (hsub c hmem), hs⟩
        · intro o ho
          rcases List.mem_cons.mp ho with rfl | ho'
          · exact List.mem_append.mpr (Or.inr (by simp))
          · exact List.mem_append.mpr (Or.inl (hsub o ho'))

/-! ### The exhaustive search: loop soundness and claims C3, C4 -/

theorem find_all_orders_loop_sound (allowed : List (ℕ × List ℕ))
    (anchors : ℕ → Option ℕ) (num : ℕ) :
    ∀ (fuel : ℕ) (stack disc full res : List SketchOrder),
      (∀ o ∈ stack, soundPartialOrder allowed anchors o.order) →
      (∀ o ∈ full, soundPartialOrder allowed anchors o.order) →
      find_all_orders_loop allowed anchors num fuel stack disc full = some res →
      ∀ o ∈ res, soundPartialOrder allowed anchors o.order := by
  intro fuel
  induction fuel with
  | zero =>
    intro stack disc full res hstack hfull hloop
    cases stack with
    | nil =>
      obtain rfl : full = res := by simpa [find_all_orders_loop] using hloop
      exact hfull
    | cons po rest =>
      exact absurd hloop (by simp [find_all_orders_loop])
  | succ fuel ih =>
    intro stack disc full res hstack hfull hloop
    cases stack with
    | nil =>
      obtain rfl : full = res := by simpa [find_all_orders_loop] using hloop
      exact hfull
    | cons po rest =>
      unfold find_all_orders_loop at hloop
      cases hpns : possible_next_states po allowed num anchors with
      | none =>
        rw [hpns] at hloop
        exact absurd hloop (by simp)
      | some cands =>
        rw [hpns] at hloop
        dsimp only at hloop
        rcases hpc : processCandidates num cands full disc rest with ⟨full1, disc1, stack1⟩
        rw [hpc] at hloop
        dsimp only at hloop
        have hcands := pns_sound allowed anchors num po cands
          (hstack po (List.mem_cons_self _ _)) hpns
        obtain ⟨hm1, hm2, hm3⟩ := processCandidates_mem num cands full disc rest
        rw [hpc] at hm1 hm3
        refine ih stack1 disc1 full1 res ?_ ?_ hloop
        · intro o ho
          rcases (hm3 o).mp ho with h | ⟨h, -, -⟩
          · exact hstack o (List.mem_cons_of_mem _ h)
          · exact hcands o h
        · intro o ho
          rcases (hm1 o).mp ho with h | ⟨h, -⟩
          · exact hfull o h
          · exact hcands o h

theorem initial_stack_sound (allowed : List (ℕ × List ℕ)) (anchors : ℕ → Option ℕ) :
    ∀ o ∈ ([⟨[]⟩] : List SketchOrder), soundPartialOrder allowed anchors o.order := by
  intro o ho
  obtain rfl : o = ⟨[]⟩ := by simpa using ho
  exact ⟨List.nodup_nil, List.chain'_nil, fun p a hpa hlt => absurd hlt (by simp)⟩

/-- Any order in a successful `find_all_orders` result is a sound partial
order: no repeats, feasible adjacencies, anchors respected. -/
theorem find_all_orders_sound (allowed : List (ℕ × List ℕ)) (anchors : ℕ → Option ℕ)
    (res : List SketchOrder)
    (hres : find_all_orders allowed anchors = some res) :
    ∀ o ∈ res, soundPartialOrder allowed anchors o.order := by
  unfold find_all_orders at hres
  exact find_all_orders_loop_sound allowed anchors _ _ _ _ _ _
    (initial_stack_sound allowed anchors) (by simp) hres

theorem chain'_getD {R : ℕ → ℕ → Prop} {l : List ℕ} (h : List.Chain' R l) (k : ℕ)
    (hk : k + 1 < l.length) : R (l.getD k 0) (l.getD (k + 1) 0) := by
  have h1 := List.chain'_iff_get.mp h k (by omega)
  have e1 : l.getD k 0 = l.get ⟨k, by omega⟩ := by
    rw [List.getD_eq_getElem?_getD, List.getElem?_eq_getElem (by omega : k < l.length)]
    rfl
  have e2 : l.getD (k + 1) 0 = l.get ⟨k + 1, by omega⟩ := by
    rw [List.getD_eq_getElem?_getD, List.getElem?_eq_getElem hk]
    rfl
  rw [e1, e2]
  exact h1

theorem gans_step_disjoint (sketches : List Sketch) {a b : ℕ}
    (h : allowedStep (get_allowable_next_sketches sketches) a b) :
    (sketches.getD a default).cast.inter (sketches.getD b default).cast = [] := by
  rcases h with ⟨s, hs, hb⟩
  have hmem := lookup_mem hs
  unfold get_allowable_next_sketches at hmem
  rcases List.mem_filterMap.mp hmem with ⟨i, hi, hif⟩
  dsimp only at hif
  by_cases hnil : ((List.range sketches.length).filter fun ind2 =>
      decide ((sketches.getD i default).cast.inter
        (sketches.getD ind2 default).cast = [])) = []
  · rw [if_pos hnil] at hif
    exact absurd hif (by simp)
  · rw [if_neg hnil] at hif
    have heq := Option.some.inj hif
    obtain rfl : i = a := congrArg Prod.fst heq
    have hsnd := congrArg Prod.snd heq
    dsimp only at hsnd
    rw [← hsnd] at hb
    have := List.mem_filter.mp hb
    simpa using this.2

theorem getD_map_indicator (sketches : List Sketch) (pl a : ℕ)
    (ha : a < sketches.length) :
    (sketches.map fun y => if pl ∈ y.cast then 1 else 0).getD a 0 =
      if pl ∈ (sketches.getD a default).cast then 1 else 0 := by
  rw [List.getD_eq_getElem?_getD, List.getElem?_map, List.getElem?_eq_getElem ha,
    List.getD_eq_getElem?_getD, List.getElem?_eq_getElem ha]
  rfl

theorem getD_map_indicator_oob (sketches : List Sketch) (pl a : ℕ)
    (ha : ¬ a < sketches.length) :
    (sketches.map fun y => if pl ∈ y.cast then 1 else 0).getD a 0 = 0 := by
  rw [List.getD_eq_getElem?_getD, List.getElem?_eq_none (by simpa using ha)]
  rfl

theorem overlap_zero_of_disjoint (sketches : List Sketch) (a b : ℕ)
    (h : (sketches.getD a default).cast.inter (sketches.getD b default).cast = []) :
    make_sketch_overlap_matrix sketches a b = 0 := by
  unfold make_sketch_overlap_matrix
  refine List.sum_eq_zero ?_
  intro x hx
  rcases List.mem_map.mp hx with ⟨row, hrow, rfl⟩
  unfold make_player_incidence_matrix at hrow
  rcases List.mem_map.mp hrow with ⟨pl, hpl, rfl⟩
  by_cases ha : a < sketches.length
  · by_cases hbb : b < sketches.length
    · rw [getD_map_indicator sketches pl a ha, getD_map_indicator sketches pl b hbb]
      by_cases hma : pl ∈ (sketches.getD a default).cast
      · by_cases hmb : pl ∈ (sketches.getD b default).cast
        · exfalso
          have hint : pl ∈ (sketches.getD a default).cast.inter
              (sketches.getD b default).cast := List.mem_inter_iff.mpr ⟨hma, hmb⟩
          rw [h] at hint
          simp at hint
        · rw [if_neg hmb, mul_zero]
      · rw [if_neg hma, zero_mul]
    · rw [getD_map_indicator_oob sketches pl b hbb]
      simp
  · rw [getD_map_indicator_oob sketches pl a ha]
    simp

/-- Claim C3: every adjacent pair in every complete order returned by
`find_all_orders` (on the feasibility relation built by
`get_allowable_next_sketches`) is an allowed step, and the cast overlap of
the two adjacent sketches is 0. -/
theorem find_all_orders_feasibility_invariant (sketches : List Sketch)
    (anchors : ℕ → Option ℕ) (res : List SketchOrder) (o : SketchOrder) (k : ℕ)
    (hres : find_all_orders (get_allowable_next_sketches sketches) anchors = some res)
    (ho : o ∈ res) (hk : k + 1 < o.order.length) :
    o.order.getD (k + 1) 0 ∈
        (((get_allowable_next_sketches sketches).lookup (o.order.getD k 0)).getD []) ∧
      make_sketch_overlap_matrix sketches (o.order.getD k 0) (o.order.getD (k + 1) 0)
        = 0 := by
  have hsound := find_all_orders_sound _ _ _ hres o ho
  rcases hsound with ⟨-, hch, -⟩
  have hstep := chain'_getD hch k hk
  rcases hstep with ⟨s, hs, hmem⟩
  refine ⟨?_, ?_⟩
  · rw [hs]
    exact hmem
  · exact overlap_zero_of_disjoint sketches _ _
      (gans_step_disjoint sketches ⟨s, hs, hmem⟩)

/-- Witness for claim C3 at the three-sketch scenario: the returned order
`[2, 1, 0]` has 1 in the allowed-next set of 2, and sketches 2 and 1 share
no cast member. -/
theorem find_all_orders_feasibility_invariant_witness :
    find_all_orders (get_allowable_next_sketches scenarioSketches) noAnchors =
      some [⟨[2, 1, 0]⟩, ⟨[0, 1, 2]⟩] ∧
    (⟨[2, 1, 0]⟩ : SketchOrder) ∈ ([⟨[2, 1, 0]⟩, ⟨[0, 1, 2]⟩] : List SketchOrder) ∧
    0 + 1 < (⟨[2, 1, 0]⟩ : SketchOrder).order.length ∧
    ((⟨[2, 1, 0]⟩ : SketchOrder).order.getD 1 0 ∈
        (((get_allowable_next_sketches scenarioSketches).lookup
          ((⟨[2, 1, 0]⟩ : SketchOrder).order.getD 0 0)).getD []) ∧
      make_sketch_overlap_matrix scenarioSketches
        ((⟨[2, 1, 0]⟩ : SketchOrder).order.getD 0 0)
        ((⟨[2, 1, 0]⟩ : SketchOrder).order.getD 1 0) = 0) :=
  ⟨rfl, by decide, by decide,
    find_all_orders_feasibility_invariant scenarioSketches noAnchors _ _ 0 rfl
      (by decide) (by decide)⟩

/-- Claim C4: every order returned by `find_all_orders` respects the
anchor map — any anchored position the order reaches holds exactly the
required sketch. -/
theorem find_all_orders_anchor_invariant (sketches : List Sketch)
    (anchors : ℕ → Option ℕ) (res : List SketchOrder) (o : SketchOrder)
    (p a : ℕ)
    (hres : find_all_orders (get_allowable_next_sketches sketches) anchors = some res)
    (ho : o ∈ res) (hpa : anchors p = some a) (hp : p < o.order.length) :
    o.order.getD p 0 = a := by
  have hsound := find_all_orders_sound _ _ _ hres o ho
  exact hsound.2.2 p a hpa hp

/-- Witness for claim C4 at the anchored three-sketch scenario: position 0
of the only returned order `[0, 1, 2]` holds sketch 0. -/
theorem find_all_orders_anchor_invariant_witness :
    find_all_orders (get_allowable_next_sketches scenarioSketches) anchorZero =
      some [⟨[0, 1, 2]⟩] ∧
    (⟨[0, 1, 2]⟩ : SketchOrder) ∈ ([⟨[0, 1, 2]⟩] : List SketchOrder) ∧
    anchorZero 0 = some 0 ∧
    0 < (⟨[0, 1, 2]⟩ : SketchOrder).order.length ∧
    (⟨[0, 1, 2]⟩ : SketchOrder).order.getD 0 0 = 0 :=
  ⟨rfl, by decide, rfl, by decide,
    find_all_orders_anchor_invariant scenarioSketches anchorZero _ _ 0 0 rfl
      (by decide) rfl (by decide)⟩

/-! ### Counting partial orders, and bridges between characterizations -/

theorem perm_range_of_counts {l : List ℕ} {N : ℕ} (hlen : l.length = N)
    (hcnt : ∀ i < N, l.count i = 1) : List.Perm l (List.range N) := by
  have hsub : List.Subperm (List.range N) l := by
    rw [List.subperm_ext_iff]
    intro a ha
    rw [List.count_eq_one_of_mem (List.nodup_range N) ha, hcnt a (List.mem_range.mp ha)]
  exact (hsub.perm_of_length_le (by rw [hlen, List.length_range])).symm

theorem consistent_elems {l : List ℕ} {N : ℕ} (hlen : l.length = N)
    (hcnt : ∀ i < N, l.count i = 1) : l.Nodup ∧ ∀ x ∈ l, x < N := by
  have hperm := perm_range_of_counts hlen hcnt
  exact ⟨hperm.nodup_iff.mpr (List.nodup_range N),
    fun x hx => List.mem_range.mp (hperm.mem_iff.mp hx)⟩

theorem counts_of_nodup {l : List ℕ} {N : ℕ} (hlen : l.length = N) (hnd : l.Nodup)
    (hmem : ∀ x ∈ l, x < N) : ∀ i < N, l.count i = 1 := by
  have hsub : List.Subperm l (List.range N) :=
    List.subperm_of_subset hnd (fun x hx => List.mem_range.mpr (hmem x hx))
  have hperm := hsub.perm_of_length_le (by rw [hlen, List.length_range])
  intro i hi
  rw [List.perm_iff_count.mp hperm i]
  exact List.count_eq_one_of_mem (List.nodup_range N) (List.mem_range.mpr hi)

theorem length_flatMap_le (E : List ℕ) (B : ℕ) (f : ℕ → List (List ℕ))
    (h : ∀ e ∈ E, (f e).length ≤ B) : (E.flatMap f).length ≤ E.length * B := by
  induction E with
  | nil => simp
  | cons e E ih =>
    rw [List.flatMap_cons, List.length_append, List.length_cons]
    have h1 := ih (fun x hx => h x (List.mem_cons_of_mem _ hx))
    have h2 := h e (by simp)
    have h3 : (E.length + 1) * B = E.length * B + B := by ring
    omega

theorem listsUpTo_length_le (E : List ℕ) : ∀ n, (listsUpTo E n).length ≤
    (E.length + 1) ^ n := by
  intro n
  induction n with
  | zero => simp [listsUpTo]
  | succ n ih =>
    rw [listsUpTo, List.length_cons]
    have h1 : (E.flatMap fun e => (listsUpTo E n).map fun l => e :: l).length ≤
        E.length * ((E.length + 1) ^ n) := by
      refine length_flatMap_le E _ _ ?_
      intro e he
      rw [List.length_map]
      exact ih
    have h2 : (E.length + 1) ^ (n + 1) = E.length * (E.length + 1) ^ n +
        (E.length + 1) ^ n := by ring
    have h3 : 1 ≤ (E.length + 1) ^ n := Nat.one_le_pow _ _ (by omega)
    omega

theorem mem_listsUpTo (E : List ℕ) : ∀ (n : ℕ) (l : List ℕ), l.length ≤ n →
    (∀ x ∈ l, x ∈ E) → l ∈ listsUpTo E n := by
  intro n
  induction n with
  | zero =>
    intro l hl _
    obtain rfl : l = [] := List.length_eq_zero.mp (Nat.le_zero.mp hl)
    simp [listsUpTo]
  | succ n ih =>
    intro l hl hmem
    rw [listsUpTo]
    cases l with
    | nil => exact List.mem_cons_self _ _
    | cons x t =>
      refine List.mem_cons_of_mem _ ?_
      rw [List.mem_flatMap]
      refine ⟨x, hmem x (by simp), ?_⟩
      rw [List.mem_map]
      exact ⟨t, ih t (by simpa using hl)
        (fun y hy => hmem y (List.mem_cons_of_mem _ hy)), rfl⟩

theorem order_injective : Function.Injective SketchOrder.order := by
  intro a b h
  cases a
  cases b
  simpa using h

theorem nodup_length_le_of_mem {disc : List SketchOrder} {U : List (List ℕ)}
    (hnd : disc.Nodup) (hmem : ∀ o ∈ disc, o.order ∈ U) : disc.length ≤ U.length := by
  have h1 : (disc.map SketchOrder.order).Nodup := hnd.map order_injective
  have h2 : (disc.map SketchOrder.order) ⊆ U := by
    intro x hx
    rcases List.mem_map.mp hx with ⟨o, ho, rfl⟩
    exact hmem o ho
  simpa using (List.subperm_of_subset h1 h2).length_le

theorem mem_stateUniverse_of_lt {allowed : List (ℕ × List ℕ)} {anchors : ℕ → Option ℕ}
    {num x : ℕ} (hx : x < num) : x ∈ stateUniverse allowed anchors num := by
  unfold stateUniverse
  exact List.mem_append.mpr (Or.inl (List.mem_append.mpr (Or.inl (List.mem_range.mpr hx))))

theorem processCandidates_disc_le (num : ℕ) :
    ∀ (cands full disc stack : List SketchOrder),
      disc.length ≤ (processCandidates num cands full disc stack).2.1.length := by
  intro cands
  induction cands with
  | nil =>
    intro full disc stack
    simp [processCandidates]
  | cons c rest ih =>
    intro full disc stack
    unfold processCandidates
    by_cases hlen : c.order.length = num
    · rw [if_pos hlen]
      exact ih (addOrder c full) disc stack
    · rw [if_neg hlen]
      by_cases hcd : c ∈ disc
      · rw [if_pos hcd]
        exact ih full disc stack
      · rw [if_neg hcd]
        have h1 := ih full (disc ++ [c]) (c :: stack)
        rw [List.length_append, List.length_singleton] at h1
        omega

/-! ### The take-prefix step of a consistent full order -/

theorem take_succ_getD {l : List ℕ} {k : ℕ} (hk : k < l.length) :
    l.take (k + 1) = l.take k ++ [l.getD k 0] := by
  rw [List.take_succ]
  congr 1
  rw [List.getElem?_eq_getElem hk, List.getD_eq_getElem?_getD,
    List.getElem?_eq_getElem hk]
  rfl

theorem getLastD_take_succ {l : List ℕ} {k : ℕ} (hk : k < l.length) :
    (l.take (k + 1)).getLastD 0 = l.getD k 0 := by
  rw [take_succ_getD hk, List.getLastD_concat]

theorem consistent_take_step (allowed : List (ℕ × List ℕ)) (anchors : ℕ → Option ℕ)
    (F : List ℕ) (hlen : F.length = allowed.length) (hnd : F.Nodup)
    (hel : ∀ x ∈ F, x < allowed.length)
    (hch : List.Chain' (allowedStep allowed) F)
    (har : anchorsRespected anchors F)
    (k : ℕ) (hk : k < allowed.length) :
    ∃ cands, possible_next_states ⟨F.take k⟩ allowed allowed.length anchors
        = some cands ∧ (⟨F.take (k + 1)⟩ : SketchOrder) ∈ cands := by
  have hkF : k < F.length := by omega
  unfold possible_next_states
  dsimp only
  cases k with
  | zero =>
    rw [if_pos (by simp)]
    have ht1 : F.take 1 = [F.getD 0 0] := by
      rw [take_succ_getD hkF]
      simp
    cases h0 : anchors 0 with
    | some a =>
      have ha := har 0 a h0 (by omega)
      refine ⟨_, rfl, ?_⟩
      rw [ht1, ha]
      simp
    | none =>
      refine ⟨_, rfl, ?_⟩
      rw [List.mem_map]
      refine ⟨F.getD 0 0, List.mem_range.mpr (hel _ (getD_mem hkF 0)), ?_⟩
      rw [ht1]
  | succ j =>
    have hjF : j < F.length := by omega
    have htke : (F.take (j + 1)).length = j + 1 := by
      rw [List.length_take]
      omega
    have hne : ¬ F.take (j + 1) = [] := by
      intro hnil
      rw [hnil] at htke
      simp at htke
    rw [if_neg hne]
    have hlast : (F.take (j + 1)).getLastD 0 = F.getD j 0 := getLastD_take_succ hjF
    have hstep := chain'_getD hch j (by omega)
    rcases hstep with ⟨s, hs, hmem⟩
    have hnotin : ¬ F.getD (j + 1) 0 ∈ F.take (j + 1) := by
      have h2 : (F.take (j + 2)).Nodup := hnd.sublist (List.take_sublist _ _)
      rw [take_succ_getD (show j + 1 < F.length by omega)] at h2
      rw [List.nodup_append] at h2
      intro hmem2
      exact h2.2.2 hmem2 (by simp)
    rw [hlast, hs, htke]
    cases ha : anchors (j + 1) with
    | none =>
      refine ⟨_, rfl, ?_⟩
      rw [List.mem_map]
      refine ⟨F.getD (j + 1) 0, ?_, ?_⟩
      · rw [List.mem_filter]
        exact ⟨hmem, by simpa using hnotin⟩
      · rw [take_succ_getD (show j + 1 < F.length by omega)]
    | some a =>
      have haa : F.getD (j + 1) 0 = a := har (j + 1) a ha (by omega)
      dsimp only
      rw [if_pos ⟨by rw [← haa]; exact hmem, by rw [← haa]; exact hnotin⟩]
      refine ⟨_, rfl, ?_⟩
      rw [take_succ_getD (show j + 1 < F.length by omega), haa]
      simp

theorem closure_complete (allowed : List (ℕ × List ℕ)) (anchors : ℕ → Option ℕ)
    (hN : 1 ≤ allowed.length) (disc full : List SketchOrder)
    (hempty : (⟨[]⟩ : SketchOrder) ∈ disc)
    (hclosed : ∀ p ∈ disc, ∀ cands,
      possible_next_states p allowed allowed.length anchors = some cands →
      ∀ q ∈ cands, (q.order.length = allowed.length → q ∈ full) ∧
        (q.order.length ≠ allowed.length → q ∈ disc))
    (F : List ℕ) (hcons : consistentFull allowed anchors F) :
    (⟨F⟩ : SketchOrder) ∈ full := by
  rcases hcons with ⟨hlen, hcnt, hch, har⟩
  obtain ⟨hnd, hel⟩ := consistent_elems hlen hcnt
  have htake : ∀ k, k < allowed.length → (⟨F.take k⟩ : SketchOrder) ∈ disc := by
    intro k
    induction k with
    | zero =>
      intro h0
      have he : (⟨F.take 0⟩ : SketchOrder) = ⟨[]⟩ := by simp
      rw [he]
      exact hempty
    | succ j ihj =>
      intro hj
      have hjd := ihj (by omega)
      rcases consistent_take_step allowed anchors F hlen hnd hel hch har j (by omega)
        with ⟨cands, hc, hmem⟩
      refine (hclosed _ hjd cands hc _ hmem).2 ?_
      have : (F.take (j + 1)).length = j + 1 := by
        rw [List.length_take]
        omega
      rw [this]
      omega
  rcases consistent_take_step allowed anchors F hlen hnd hel hch har
    (allowed.length - 1) (by omega) with ⟨cands, hc, hmem⟩
  have hd := htake (allowed.length - 1) (by omega)
  have hNs : allowed.length - 1 + 1 = allowed.length := by omega
  rw [hNs] at hmem
  have hFt : F.take allowed.length = F := by
    rw [← hlen]
    exact List.take_length F
  rw [hFt] at hmem
  exact (hclosed _ hd cands hc _ hmem).1 hlen

/-! ### The worklist invariant is preserved -/

theorem loopInv_step (allowed : List (ℕ × List ℕ)) (anchors : ℕ → Option ℕ)
    (hkeys : allowed.map Prod.fst = List.range allowed.length)
    (hvals : ∀ kv ∈ allowed, ∀ b ∈ kv.2, b < allowed.length)
    (hanch : ∀ p a, anchors p = some a → p < allowed.length ∧ a < allowed.length)
    (po : SketchOrder) (rest disc full cands full1 disc1 stack1 : List SketchOrder)
    (hinv : loopInv allowed anchors (po :: rest) disc full)
    (hpns : possible_next_states po allowed allowed.length anchors = some cands)
    (hpc : processCandidates allowed.length cands full disc rest
      = (full1, disc1, stack1)) :
    loopInv allowed anchors stack1 disc1 full1 := by
  obtain ⟨hsn, hsub, hemp, hdn, helm, hlenlt, hsound, hfullg, hclosed⟩ := hinv
  obtain ⟨hm1, hm2, hm3⟩ := processCandidates_mem allowed.length cands full disc rest
  rw [hpc] at hm1 hm2 hm3
  dsimp only at hm1 hm2 hm3
  have hpod : po ∈ disc := hsub po (List.mem_cons_self _ _)
  have hcands_sound := pns_sound allowed anchors allowed.length po cands
    (hsound po hpod) hpns
  have hcands_shape : ∀ q ∈ cands, q.order.length = po.order.length + 1 ∧
      (∀ x ∈ q.order, x < allowed.length) := by
    intro q hq
    rcases pns_shape allowed anchors allowed.length po cands q hpns hq
      with ⟨x, hqx, hx⟩
    have hxlt : x < allowed.length := by
      rcases hx with ⟨pos, hpos⟩ | hx | ⟨s, hls, hxs⟩
      · exact (hanch pos x hpos).2
      · exact List.mem_range.mp hx
      · exact hvals _ (lookup_mem hls) x hxs
    constructor
    · rw [hqx, List.length_append, List.length_singleton]
    · intro y hy
      rw [hqx] at hy
      rcases List.mem_append.mp hy with hy' | hy'
      · exact helm po hpod y hy'
      · obtain rfl : y = x := by simpa using hy'
        exact hxlt
  refine ⟨?_, ?_, ?_, ?_, ?_, ?_, ?_, ?_, ?_⟩
  · have hh := processCandidates_stack_nodup allowed.length cands full disc rest hdn
      (List.Nodup.of_cons hsn) (fun o ho => hsub o (List.mem_cons_of_mem _ ho))
    rw [hpc] at hh
    exact hh
  · intro o ho
    rcases (hm3 o).mp ho with h | ⟨h1, h2, -⟩
    · exact (hm2 o).mpr (Or.inl (hsub o (List.mem_cons_of_mem _ h)))
    · exact (hm2 o).mpr (Or.inr ⟨h1, h2⟩)
  · exact (hm2 _).mpr (Or.inl hemp)
  · have hh := processCandidates_disc_nodup allowed.length cands full disc rest hdn
    rw [hpc] at hh
    exact hh
  · intro o ho
    rcases (hm2 o).mp ho with h | ⟨h, -⟩
    · exact helm o h
    · exact (hcands_shape o h).2
  · intro o ho
    rcases (hm2 o).mp ho with h | ⟨h, hne⟩
    · exact hlenlt o h
    · have h1 := (hcands_shape o h).1
      have h2 := hlenlt po hpod
      omega
  · intro o ho
    rcases (hm2 o).mp ho with h | ⟨h, -⟩
    · exact hsound o h
    · exact hcands_sound o h
  · intro o ho
    rcases (hm1 o).mp ho with h | ⟨h, heq⟩
    · exact hfullg o h
    · exact ⟨heq, (hcands_shape o h).2, hcands_sound o h⟩
  · intro p hp hnstack cands0 hpns0 q hq
    by_cases hppo : p = po
    · subst hppo
      rw [hpns] at hpns0
      obtain rfl : cands = cands0 := Option.some.inj hpns0
      exact ⟨fun hql => (hm1 q).mpr (Or.inr ⟨hq, hql⟩),
        fun hql => (hm2 q).mpr (Or.inr ⟨hq, hql⟩)⟩
    · by_cases hpd : p ∈ disc
      · have hnrest : ¬ p ∈ rest := fun hr => hnstack ((hm3 p).mpr (Or.inl hr))
        have hnold : ¬ p ∈ po :: rest := by
          intro hmem
          rcases List.mem_cons.mp hmem with h | h
          · exact hppo h
          · exact hnrest h
        have hold := hclosed p hpd hnold cands0 hpns0 q hq
        exact ⟨fun hql => (hm1 q).mpr (Or.inl (hold.1 hql)),
          fun hql => (hm2 q).mpr (Or.inl (hold.2 hql))⟩
      · exfalso
        rcases (hm2 p).mp hp with h | ⟨h1, h2⟩
        · exact hpd h
        · exact hnstack ((hm3 p).mpr (Or.inr ⟨h1, h2, hpd⟩))

theorem find_all_orders_loop_spec (allowed : List (ℕ × List ℕ))
    (anchors : ℕ → Option ℕ)
    (hkeys : allowed.map Prod.fst = List.range allowed.length)
    (hvals : ∀ kv ∈ allowed, ∀ b ∈ kv.2, b < allowed.length)
    (hanch : ∀ p a, anchors p = some a → p < allowed.length ∧ a < allowed.length) :
    ∀ (fuel : ℕ) (stack disc full : List SketchOrder),
      loopInv allowed anchors stack disc full →
      stack.length + ((listsUpTo (stateUniverse allowed anchors allowed.length)
        (allowed.length + 1)).length + 1 - disc.length) ≤ fuel →
      ∃ res discF,
        find_all_orders_loop allowed anchors allowed.length fuel stack disc full
          = some res ∧ loopInv allowed anchors [] discF res := by
  intro fuel
  induction fuel with
  | zero =>
    intro stack disc full hinv hfuel
    cases stack with
    | nil =>
      refine ⟨full, disc, by simp [find_all_orders_loop], ?_⟩
      obtain ⟨-, -, hemp, hdn, helm, hlenlt, hsound, hfullg, hclosed⟩ := hinv
      exact ⟨List.nodup_nil, by simp, hemp, hdn, helm, hlenlt, hsound, hfullg,
        fun p hp _ => hclosed p hp (by simp)⟩
    | cons po rest =>
      exfalso
      rw [List.length_cons] at hfuel
      omega
  | succ fuel ih =>
    intro stack disc full hinv hfuel
    cases stack with
    | nil =>
      refine ⟨full, disc, by simp [find_all_orders_loop], ?_⟩
      obtain ⟨-, -, hemp, hdn, helm, hlenlt, hsound, hfullg, hclosed⟩ := hinv
      exact ⟨List.nodup_nil, by simp, hemp, hdn, helm, hlenlt, hsound, hfullg,
        fun p hp _ => hclosed p hp (by simp)⟩
    | cons po rest =>
      have hpod : po ∈ disc := hinv.2.1 po (List.mem_cons_self _ _)
      obtain ⟨cands, hpns⟩ := pns_isSome allowed anchors hkeys po
        (hinv.2.2.2.2.1 po hpod)
      rcases hpc : processCandidates allowed.length cands full disc rest
        with ⟨full1, disc1, stack1⟩
      have hinv1 := loopInv_step allowed anchors hkeys hvals hanch po rest disc full
        cands full1 disc1 stack1 hinv hpns hpc
      have hleq := processCandidates_length allowed.length cands full disc rest
      rw [hpc] at hleq
      dsimp only at hleq
      have hmono := processCandidates_disc_le allowed.length cands full disc rest
      rw [hpc] at hmono
      dsimp only at hmono
      have hb : disc1.length ≤ (listsUpTo (stateUniverse allowed anchors
          allowed.length) (allowed.length + 1)).length := by
        refine nodup_length_le_of_mem hinv1.2.2.2.1 ?_
        intro o ho
        refine mem_listsUpTo _ _ _ ?_ ?_
        · have := hinv1.2.2.2.2.2.1 o ho
          omega
        · intro x hx
          exact mem_stateUniverse_of_lt (hinv1.2.2.2.2.1 o ho x hx)
      obtain ⟨res, discF, hloop, hinvF⟩ := ih stack1 disc1 full1 hinv1 (by
        rw [List.length_cons] at hfuel
        omega)
      refine ⟨res, discF, ?_, hinvF⟩
      unfold find_all_orders_loop
      rw [hpns]
      dsimp only
      rw [hpc]
      dsimp only
      exact hloop

/-- Under well-formedness of the inputs, `find_all_orders` succeeds and
returns exactly the feasibility- and anchor-consistent full-length
orders. -/
theorem find_all_orders_spec (allowed : List (ℕ × List ℕ)) (anchors : ℕ → Option ℕ)
    (hN : 1 ≤ allowed.length)
    (hkeys : allowed.map Prod.fst = List.range allowed.length)
    (hvals : ∀ kv ∈ allowed, ∀ b ∈ kv.2, b < allowed.length)
    (hanch : ∀ p a, anchors p = some a → p < allowed.length ∧ a < allowed.length) :
    ∃ res, find_all_orders allowed anchors = some res ∧
      ∀ o : SketchOrder, o ∈ res ↔ consistentFull allowed anchors o.order := by
  have hinv0 : loopInv allowed anchors [⟨[]⟩] [⟨[]⟩] [] := by
    refine ⟨by simp, by simp, by simp, by simp, ?_, ?_, ?_, by simp, ?_⟩
    · intro o ho x hx
      obtain rfl : o = ⟨[]⟩ := by simpa using ho
      simp at hx
    · intro o ho
      obtain rfl : o = ⟨[]⟩ := by simpa using ho
      simpa using hN
    · intro o ho
      obtain rfl : o = ⟨[]⟩ := by simpa using ho
      exact ⟨List.nodup_nil, List.chain'_nil, fun p a hpa hlt => absurd hlt (by simp)⟩
    · intro p hp hns
      obtain rfl : p = ⟨[]⟩ := by simpa using hp
      exact absurd (List.mem_singleton.mpr rfl) hns
  obtain ⟨res, discF, hloop, hinvF⟩ := find_all_orders_loop_spec allowed anchors
    hkeys hvals hanch
    (((stateUniverse allowed anchors allowed.length).length + 1)
      ^ (allowed.length + 1) + 2)
    [⟨[]⟩] [⟨[]⟩] [] hinv0 (by
      have hbb := listsUpTo_length_le (stateUniverse allowed anchors allowed.length)
        (allowed.length + 1)
      rw [List.length_singleton]
      omega)
  refine ⟨res, ?_, ?_⟩
  · unfold find_all_orders
    exact hloop
  · obtain ⟨-, -, hempF, -, -, -, -, hfullF, hclosedF⟩ := hinvF
    intro o
    constructor
    · intro ho
      obtain ⟨hlen, helm, hnd, hch, har⟩ := hfullF o ho
      exact ⟨hlen, counts_of_nodup hlen hnd helm, hch, har⟩
    · intro hcons
      have hh := closure_complete allowed anchors hN discF res hempF
        (fun p hp cands hc => hclosedF p hp (by simp) cands hc) o.order hcons
      simpa using hh

/-! ### The feasibility relation built from sketches -/

theorem gans_vals (sketches : List Sketch) :
    ∀ kv ∈ get_allowable_next_sketches sketches, ∀ b ∈ kv.2, b < sketches.length := by
  intro kv hkv b hb
  unfold get_allowable_next_sketches at hkv
  rcases List.mem_filterMap.mp hkv with ⟨i, hi, hif⟩
  dsimp only at hif
  by_cases hnil : ((List.range sketches.length).filter fun ind2 =>
      decide ((sketches.getD i default).cast.inter
        (sketches.getD ind2 default).cast = [])) = []
  · rw [if_pos hnil] at hif
    exact absurd hif (by simp)
  · rw [if_neg hnil] at hif
    have heq := Option.some.inj hif
    rw [← heq] at hb
    dsimp only at hb
    exact List.mem_range.mp (List.mem_of_mem_filter hb)

theorem filterMap_if_all_some (g : ℕ → List ℕ) :
    ∀ (l : List ℕ), (∀ i ∈ l, ¬ g i = []) →
      ((l.filterMap fun i => if g i = [] then none else some (i, g i)).map
        Prod.fst) = l := by
  intro l
  induction l with
  | nil => simp
  | cons a t ih =>
    intro hall
    rw [List.filterMap_cons, if_neg (hall a (by simp))]
    rw [List.map_cons]
    rw [ih (fun i hi => hall i (List.mem_cons_of_mem _ hi))]

theorem gans_keys (sketches : List Sketch)
    (hcompat : ∀ i < sketches.length, ∃ j < sketches.length,
      (sketches.getD i default).cast.inter (sketches.getD j default).cast = []) :
    (get_allowable_next_sketches sketches).map Prod.fst
      = List.range sketches.length := by
  unfold get_allowable_next_sketches
  have hsome : ∀ i ∈ List.range sketches.length,
      ¬ ((List.range sketches.length).filter fun ind2 =>
        decide ((sketches.getD i default).cast.inter
          (sketches.getD ind2 default).cast = [])) = [] := by
    intro i hi hnil
    rcases hcompat i (List.mem_range.mp hi) with ⟨j, hj, hdisj⟩
    have hjm : j ∈ (List.range sketches.length).filter fun ind2 =>
        decide ((sketches.getD i default).cast.inter
          (sketches.getD ind2 default).cast = []) := by
      rw [List.mem_filter]
      exact ⟨List.mem_range.mpr hj, by simpa using hdisj⟩
    rw [hnil] at hjm
    simp at hjm
  exact filterMap_if_all_some _ (List.range sketches.length) hsome

/-! ### Claim C1: the exhaustive enumeration -/

/-- Claim C1 (counterexample): with three sketches in which sketch 0
shares a cast member with every sketch (including itself), sketch 0 has
no allowable successor, so it is missing from the feasibility dict:
`num_sketches = len(allowed_nexts) = 2`, and popping the partial order
`[0]` raises `KeyError` (`allowed_nexts[0]`).  `find_all_orders` therefore
does not return the set of full-length consistent orders — it does not
return at all. -/
theorem find_all_orders_crashes_on_conflicting_sketch :
    find_all_orders (get_allowable_next_sketches conflictSketches) noAnchors
        = none ∧
    ¬ ∃ res, find_all_orders (get_allowable_next_sketches conflictSketches)
          noAnchors = some res ∧
        ∀ o : SketchOrder, o ∈ res ↔
          (o.order.length = conflictSketches.length ∧
            (∀ i < conflictSketches.length, o.order.count i = 1) ∧
            List.Chain' (allowedStep (get_allowable_next_sketches conflictSketches))
              o.order ∧
            anchorsRespected noAnchors o.order) := by
  refine ⟨rfl, ?_⟩
  rintro ⟨res, hres, -⟩
  have h0 : find_all_orders (get_allowable_next_sketches conflictSketches) noAnchors
      = none := rfl
  rw [h0] at hres
  exact Option.noConfusion hres

/-- Claim C1 (amended): for a non-empty sketch list in which every sketch
has at least one allowable successor, and an anchor map whose positions
and required sketches lie in `[0, N)`, `find_all_orders` applied to the
relation built by `get_allowable_next_sketches` returns exactly the set
of full-length orders: each returned order has length `N` and contains
every sketch index exactly once, and an order is returned iff it is
feasibility-consistent and anchor-consistent. -/
theorem find_all_orders_enumerates_consistent (sketches : List Sketch)
    (anchors : ℕ → Option ℕ)
    (hN : 1 ≤ sketches.length)
    (hcompat : ∀ i < sketches.length, ∃ j < sketches.length,
      (sketches.getD i default).cast.inter (sketches.getD j default).cast = [])
    (hanch : ∀ p a, anchors p = some a → p < sketches.length ∧ a < sketches.length) :
    ∃ res, find_all_orders (get_allowable_next_sketches sketches) anchors
        = some res ∧
      ∀ o : SketchOrder, o ∈ res ↔
        (o.order.length = sketches.length ∧
          (∀ i < sketches.length, o.order.count i = 1) ∧
          List.Chain' (allowedStep (get_allowable_next_sketches sketches)) o.order ∧
          anchorsRespected anchors o.order) := by
  have hkeys := gans_keys sketches hcompat
  have hlen : (get_allowable_next_sketches sketches).length = sketches.length := by
    have hh := congrArg List.length hkeys
    simpa using hh
  obtain ⟨res, h1, h2⟩ := find_all_orders_spec (get_allowable_next_sketches sketches)
    anchors (by omega) (by rw [hkeys, hlen]) (by rw [hlen]; exact gans_vals sketches)
    (by rw [hlen]; exact hanch)
  refine ⟨res, h1, fun o => ?_⟩
  rw [h2 o]
  unfold consistentFull
  rw [hlen]

/-- Witness for the amended claim C1 at the spec's three-sketch scenario
with no anchors. -/
theorem find_all_orders_enumerates_consistent_witness :
    (1 ≤ scenarioSketches.length) ∧
    (∀ i < scenarioSketches.length, ∃ j < scenarioSketches.length,
      (scenarioSketches.getD i default).cast.inter
        (scenarioSketches.getD j default).cast = []) ∧
    (∃ res, find_all_orders (get_allowable_next_sketches scenarioSketches) noAnchors
        = some res ∧
      ∀ o : SketchOrder, o ∈ res ↔
        (o.order.length = scenarioSketches.length ∧
          (∀ i < scenarioSketches.length, o.order.count i = 1) ∧
          List.Chain' (allowedStep (get_allowable_next_sketches scenarioSketches))
            o.order ∧
          anchorsRespected noAnchors o.order)) :=
  ⟨by decide, by decide,
    find_all_orders_enumerates_consistent scenarioSketches noAnchors (by decide)
      (by decide) (fun p a h => by simp [noAnchors] at h)⟩

/-! ### Claim C9: failure semantics of the selector -/

/-- Claim C9 (counterexample): with zero sketches the empty order is the
unique complete order and it satisfies feasibility and anchors vacuously,
yet `find_best_order` raises
`ValueError("No valid running order found ...")` because the search never
records the empty order as complete — so "error iff the consistent set is
empty" fails. -/
theorem find_best_order_errors_despite_feasible :
    (∃ e, find_best_order [] noAnchors none = Except.error e) ∧
    consistentFull [] noAnchors [] := by
  constructor
  · exact ⟨_, rfl⟩
  · refine ⟨rfl, ?_, List.chain'_nil, ?_⟩
    · intro i hi
      simp at hi
    · intro p a hpa hlt
      simp at hlt

/-- Claim C9 (amended): for a feasibility relation with keys exactly
`0, ..., N-1` (`N ≥ 1`), in-range successor sets and an in-range anchor
map, `find_best_order` raises an error iff no feasibility- and
anchor-consistent complete order exists, and when it returns an order
that order is consistent and complete. -/
theorem find_best_order_error_iff_infeasible (allowed : List (ℕ × List ℕ))
    (anchors : ℕ → Option ℕ) (desired : Option (List ℕ))
    (hN : 1 ≤ allowed.length)
    (hkeys : allowed.map Prod.fst = List.range allowed.length)
    (hvals : ∀ kv ∈ allowed, ∀ b ∈ kv.2, b < allowed.length)
    (hanch : ∀ p a, anchors p = some a → p < allowed.length ∧ a < allowed.length) :
    ((∃ e, find_best_order allowed anchors desired = Except.error e) ↔
      ¬ ∃ l : List ℕ, consistentFull allowed anchors l) ∧
    (∀ r, find_best_order allowed anchors desired = Except.ok r →
      consistentFull allowed anchors r.order) := by
  obtain ⟨res, hres, hchar⟩ := find_all_orders_spec allowed anchors hN hkeys
    hvals hanch
  unfold find_best_order
  rw [hres]
  dsimp only
  by_cases hemp : res = []
  · rw [if_pos hemp]
    refine ⟨⟨fun he hl => ?_, fun hno => ⟨_, rfl⟩⟩, fun r hr => ?_⟩
    · rcases hl with ⟨l, hl⟩
      have hm := (hchar ⟨l⟩).mpr hl
      rw [hemp] at hm
      simp at hm
    · exact absurd hr (by simp)
  · rw [if_neg hemp]
    have hex : ∃ l, consistentFull allowed anchors l := by
      rcases head?_of_ne_nil hemp with ⟨o, -, homem⟩
      exact ⟨o.order, (hchar o).mp homem⟩
    cases desired with
    | none =>
      rcases head?_of_ne_nil hemp with ⟨o, hh, hom⟩
      dsimp only
      rw [hh]
      refine ⟨⟨fun he => ?_, fun hcon => absurd hex hcon⟩, fun r hr => ?_⟩
      · rcases he with ⟨e, he⟩
        exact absurd he (by simp)
      · obtain rfl : o = r := by simpa using hr
        exact (hchar o).mp hom
    | some d =>
      obtain ⟨r0, hr0, hr0mem, -⟩ := find_closest_to_desired_spec res d hemp
      dsimp only
      rw [hr0]
      refine ⟨⟨fun he => ?_, fun hcon => absurd hex hcon⟩, fun r hr => ?_⟩
      · rcases he with ⟨e, he⟩
        exact absurd he (by simp)
      · obtain rfl : r0 = r := by simpa using hr
        exact (hchar r0).mp hr0mem

/-- Witness for the amended claim C9 at the test scenario's feasibility
relation with no anchors and no desired order. -/
theorem find_best_order_error_iff_infeasible_witness :
    (1 ≤ allowedThree.length) ∧
    (allowedThree.map Prod.fst = List.range allowedThree.length) ∧
    (∀ kv ∈ allowedThree, ∀ b ∈ kv.2, b < allowedThree.length) ∧
    (((∃ e, find_best_order allowedThree noAnchors none = Except.error e) ↔
      ¬ ∃ l : List ℕ, consistentFull allowedThree noAnchors l) ∧
    (∀ r, find_best_order allowedThree noAnchors none = Except.ok r →
      consistentFull allowedThree noAnchors r.order)) :=
  ⟨by decide, by decide, by decide,
    find_best_order_error_iff_infeasible allowedThree noAnchors none (by decide)
      (by decide) (by decide) (fun p a h => by simp [noAnchors] at h)⟩

end RunningOrder
